import Mathlib

/-!
Shallow embedding of the multi-source record merger of
`src/merge_tagged_results.py` (class `Tag_Result_Merger`), with proofs of
the behavioural claims about it.

Conventions of the embedding:
* A JSON value stored in a record field is a `Value` (the spec's variant
  type: string, number, boolean, null, or list of strings).  Python's
  numeric cross-type equality (`1 == True`) and floats are not modelled;
  record identifiers in this pipeline are strings.
* A Python `dict` is an insertion-ordered association list; `assocGet`
  returns the value of the first (unique) matching key and `assocSet`
  updates the value in place or appends a new key at the end, exactly the
  observable behaviour of `d[k]` / `d[k] = v`.
* A file on disk is an `MFile`: its name plus, for each successive read
  attempt, the outcome of `json.load` (success with a list, success with a
  non-list top-level value, or a raised I/O / parse error).  This models
  the transient-failure behaviour that the tenacity retry decorator on
  `_load_json_file` is written against.
* Exceptions are `Except`; `joblib.Parallel` re-raises the first worker
  exception in the parent, which the orchestrator model reflects by
  propagating the first group error.
-/

namespace ILA

/-- Variant value type of a record field (spec §3: string, number, boolean,
null, or list of string). -/
inductive Value where
  | str (s : String)
  | num (n : Int)
  | bool (b : Bool)
  | null
  | list (xs : List String)
  deriving DecidableEq, Repr

/-- Python truthiness (`bool(v)`) of a JSON value: empty string, zero,
`False`, `None` and the empty list are falsy. -/
def Value.truthy : Value → Bool
  | .str s => !s.data.isEmpty
  | .num n => n != 0
  | .bool b => b
  | .null => false
  | .list xs => !xs.isEmpty

/-- Python `str.split(sep)` for a one-character separator, by structural
recursion over the character list (it always returns at least one part,
and empty parts between adjacent separators are kept, as in Python). -/
def splitChar (sep : Char) : List Char → List (List Char)
  | [] => [[]]
  | c :: rest =>
    match splitChar sep rest with
    | [] => [[]]
    | w :: ws => if c = sep then [] :: w :: ws else (c :: w) :: ws

/-- Python `filename.split(sep)` on strings. -/
def pySplit (s : String) (sep : Char) : List String :=
  (splitChar sep s.data).map String.mk

/-- Python `s.endswith(suffix)`. -/
def strEndsWith (s suffix : String) : Bool :=
  suffix.data.isSuffixOf s.data

/-- Python truthiness of the result of `dict.get`: an absent key yields
`None`, which is falsy. -/
def truthyOpt : Option Value → Bool
  | some v => v.truthy
  | none => false

section Assoc

variable {κ ν : Type} [DecidableEq κ]

/-- Lookup in an insertion-ordered association list (Python `d.get(k)`):
the value at the first occurrence of the key. -/
def assocGet : List (κ × ν) → κ → Option ν
  | [], _ => none
  | (k', v) :: rest, k => if k' = k then some v else assocGet rest k

/-- Update in an insertion-ordered association list (Python `d[k] = v`):
replace the value at an existing key in place, else append at the end. -/
def assocSet : List (κ × ν) → κ → ν → List (κ × ν)
  | [], k, v => [(k, v)]
  | (k', v') :: rest, k, v =>
    if k' = k then (k, v) :: rest else (k', v') :: assocSet rest k v

end Assoc

/-- A record: an insertion-ordered mapping from string keys to variant
values, as produced by `json.load` on one element of a result file. -/
abbrev Record := List (String × Value)

/-- Well-formedness of a record as parsed from a JSON object: keys are
unique. -/
abbrev RecordWF (r : Record) : Prop := (r.map Prod.fst).Nodup

/-- Identifier resolution of `_merge_single_group` (lines 206–210):
`record_id = record.get(id_field)`, replaced by `record.get('an')` when
falsy, and `None`-equivalent (missing) when still falsy. -/
def resolveRecordId (r : Record) (idField : String) : Option Value :=
  let rid := assocGet r idField
  let rid := if truthyOpt rid then rid else assocGet r "an"
  if truthyOpt rid then rid else none

/-- Method `_add_record_data` (lines 228–232): copy every key of the source
record except the identifier field into the target record, overwriting. -/
def addRecordData (target : Record) (source : Record) (idField : String) : Record :=
  source.foldl (fun t kv => if kv.1 = idField then t else assocSet t kv.1 kv.2) target

/-- Outcome of one attempt of the body of `_load_json_file`: `json.load`
yields a list, yields a non-list top-level value, or raises an I/O or
parse error. -/
inductive LoadOutcome where
  | ok (records : List Record)
  | notList
  | err
  deriving DecidableEq, Repr

/-- A source file as the merger sees it: its filename (the last path
component) and, for each successive read attempt, that attempt's outcome. -/
structure MFile where
  name : String
  attempts : Nat → LoadOutcome

/-- Retry bound of the tenacity decorator on `_load_json_file`
(`stop=stop_after_attempt(3)`). -/
def loadMaxAttempts : Nat := 3

/-- Fixed delay in seconds between attempts (`wait=wait_fixed(5)`). -/
def loadWaitSeconds : Nat := 5

/-- Error raised out of `_load_json_file` once every attempt has raised
(tenacity re-raises after the attempt bound is exhausted). -/
inductive LoadErr where
  | retriesExhausted
  deriving DecidableEq, Repr

/-- Retry loop of the tenacity decorator: run the body; a non-raising
attempt returns its value immediately (`.ok records` for a list,
`.ok none` for the non-list `return None` path), a raising attempt is
retried while attempts remain. `fuel` is the number of attempts still
allowed, `k` the index of the current attempt. -/
def tenacityLoop (attempts : Nat → LoadOutcome) : Nat → Nat → Except LoadErr (Option (List Record))
  | _, 0 => .error .retriesExhausted
  | k, fuel + 1 =>
    match attempts k with
    | .ok records => .ok (some records)
    | .notList => .ok none
    | .err => tenacityLoop attempts (k + 1) fuel

/-- Method `_load_json_file` (lines 234–249): parse the file with up to
`loadMaxAttempts` attempts; a successful parse of a non-list yields `None`
(modelled `.ok none`) without retrying, exhausted retries propagate the
error. -/
def loadJsonFile (f : MFile) : Except LoadErr (Option (List Record)) :=
  tenacityLoop f.attempts 0 loadMaxAttempts

/-- Exceptions escaping `_merge_single_group`: an exhausted-retry load
failure, the `TypeError` from iterating the `None` returned for a
non-list file, and the `ValueError` for a record with no usable
identifier.  Each carries the name of the offending file. -/
inductive GroupErr where
  | loadFailure (fileName : String)
  | typeError (fileName : String)
  | missingIdentifier (fileName : String)
  deriving DecidableEq, Repr

/-- Output of a successful `_merge_single_group`: the group index, the
member file names, and the merged records in first-seen identifier
order. -/
structure MergedGroup where
  groupIndex : Nat
  sourceFiles : List String
  records : List Record
  deriving DecidableEq, Repr

/-- Inner loop of `_merge_single_group` over the records of one file
(lines 204–217): resolve the identifier (raising `ValueError` when it is
missing), seed `{id_field: record_id}` for a new identifier, then copy the
record's other fields over the accumulated record. -/
def mergeRecordsList (idField fileName : String) :
    List (Value × Record) → List Record → Except GroupErr (List (Value × Record))
  | byId, [] => .ok byId
  | byId, r :: rest =>
    match resolveRecordId r idField with
    | none => .error (.missingIdentifier fileName)
    | some rid =>
      let target := (assocGet byId rid).getD [(idField, rid)]
      mergeRecordsList idField fileName (assocSet byId rid (addRecordData target r idField)) rest

/-- Outer loop of `_merge_single_group` over the member files: load each
file in SourceLocation order (a raised load failure propagates), iterate
its records (`for record in None` raises `TypeError` when the file was not
a list), and fold them into the accumulator. -/
def mergeGroupGo (idField : String) :
    List (Value × Record) → List MFile → Except GroupErr (List (Value × Record))
  | byId, [] => .ok byId
  | byId, f :: rest =>
    match loadJsonFile f with
    | .error _ => .error (.loadFailure f.name)
    | .ok none => .error (.typeError f.name)
    | .ok (some records) =>
      match mergeRecordsList idField f.name byId records with
      | .error e => .error e
      | .ok byId' => mergeGroupGo idField byId' rest

/-- Method `_merge_single_group` (lines 198–226): fold all member files
into `records_by_id`, return `None` for an empty result, otherwise the
`MergedGroup` with the records in insertion order. -/
def mergeSingleGroup (group : List MFile) (idField : String) (groupIndex : Nat) :
    Except GroupErr (Option MergedGroup) :=
  match mergeGroupGo idField [] group with
  | .error e => .error e
  | .ok byId =>
    if byId.isEmpty then .ok none
    else .ok (some ⟨groupIndex, group.map (·.name), byId.map Prod.snd⟩)

/-- Total single-record step used to reason about successful merges: the
effect of the loop body of `_merge_single_group` on `records_by_id` when
the record's identifier resolves (a non-resolving record is left to the
error lemmas). -/
def foldRecord (idField : String) (byId : List (Value × Record)) (r : Record) :
    List (Value × Record) :=
  match resolveRecordId r idField with
  | none => byId
  | some rid =>
    assocSet byId rid (addRecordData ((assocGet byId rid).getD [(idField, rid)]) r idField)

/-- Total fold of `foldRecord` over a record stream. -/
def foldRecords (idField : String) (byId : List (Value × Record)) (recs : List Record) :
    List (Value × Record) :=
  recs.foldl (foldRecord idField) byId

/-- Rendering of a value inside an f-string, as Python `str()` does for
JSON-shaped data (used for the derived output filename). -/
def pyStr : Value → String
  | .str s => s
  | .num n => toString n
  | .bool true => "True"
  | .bool false => "False"
  | .null => "None"
  | .list xs => "[" ++ String.intercalate ", " (xs.map (fun s => "\x27" ++ s ++ "\x27")) ++ "]"

/-- Stem of a filename (`Path.stem`), for the `*.json` names produced by
the discovery glob: the name without its `.json` suffix. -/
def pathStem (name : String) : String :=
  if strEndsWith name ".json" then String.mk (name.data.take (name.data.length - 5))
  else name

/-- One element of the list returned by `merge_files`: a saved output path
(persist-per-group mode), a full merged group (accumulate mode,
`append_merge_results=True`), or the memory-saving placeholder dict
(index-only mode). -/
inductive MergeResult where
  | savedPath (path : String)
  | mergedGroup (mg : MergedGroup)
  | placeholder (groupIndex : Nat)
  deriving DecidableEq, Repr

/-- Output filename derivation in `process_group` (lines 157–164): the
first merged record's `ILA_original_filename` when that value is truthy,
else the stem of the group's first member file, suffixed `.json`. -/
def outputFilename (group : List MFile) (mg : MergedGroup) : String :=
  let firstRecord := mg.records.headD []
  let original := assocGet firstRecord "ILA_original_filename"
  let nameSource :=
    if truthyOpt original then pyStr (original.getD .null)
    else
      match group with
      | f :: _ => pathStem f.name
      | [] => ""
  nameSource ++ ".json"

/-- Closure `process_group` of `merge_files` (lines 152–176): merge one
group; on `None` contribute nothing; in persist mode write the records and
return the path, otherwise return the merged group or the placeholder.
The second component is the list of file writes performed
`(path, contents)`; the model's writes always succeed, so the
`try`/`except` around saving (which catches only write-time faults) never
fires. -/
def processGroup (idField : String) (save append : Bool) (outputDir : String)
    (idx : Nat) (group : List MFile) :
    Except GroupErr (Option MergeResult × List (String × List Record)) :=
  match mergeSingleGroup group idField idx with
  | .error e => .error e
  | .ok none => .ok (none, [])
  | .ok (some mg) =>
    if save then
      let path := outputDir ++ "/" ++ outputFilename group mg
      .ok (some (.savedPath path), [(path, mg.records)])
    else if append then .ok (some (.mergedGroup mg), [])
    else .ok (some (.placeholder idx), [])

/-- Orchestration loop of `merge_files` over the enumerated groups.
`joblib.Parallel` re-raises the first worker exception in the parent, so a
group error makes the whole call raise; `None` results are filtered out of
the returned list (line 184).  The write log is threaded separately so
that the absence of writes is expressible even for raising runs. -/
def mergeFilesGo (idField : String) (save append : Bool) (outputDir : String) :
    Nat → List (List MFile) →
    Except GroupErr (List MergeResult) × List (String × List Record)
  | _, [] => (.ok [], [])
  | idx, g :: rest =>
    match processGroup idField save append outputDir idx g with
    | .error e => (.error e, [])
    | .ok (res, ws) =>
      let (r, ws') := mergeFilesGo idField save append outputDir (idx + 1) rest
      match r with
      | .error e => (.error e, ws ++ ws')
      | .ok rs =>
        (.ok (match res with | some x => x :: rs | none => rs), ws ++ ws')

/-- Method `merge_files` (lines 129–195): process every group (group `i`
gets index `i`), collect the non-`None` results, and return them together
with the performed writes. -/
def mergeFiles (fileGroups : List (List MFile)) (idField : String)
    (save append : Bool) (outputDir : String) :
    Except GroupErr (List MergeResult) × List (String × List Record) :=
  mergeFilesGo idField save append outputDir 0 fileGroups

/-- Python `str.isdigit` restricted to ASCII data: non-empty and all
digits. -/
def pyIsdigit (s : String) : Bool :=
  !s.data.isEmpty && s.data.all Char.isDigit

/-- Base-pattern extraction of `discover_merge_files` (lines 86–96): split
the filename on underscores; a leading digit part followed by `articles`
yields `"<year>_articles_<n>_"` when the third part is a digit run, else
`"<year>_articles_"`; otherwise the file has no pattern. -/
def extractBasePattern (filename : String) : Option String :=
  let parts := pySplit filename '_'
  match parts.get? 0, parts.get? 1 with
  | some p0, some p1 =>
    if pyIsdigit p0 && (p1 == "articles") then
      match parts.get? 2 with
      | some p2 =>
        if pyIsdigit p2 then some (p0 ++ "_articles_" ++ p2 ++ "_")
        else some (p0 ++ "_articles_")
      | none => none
    else none
  | _, _ => none

/-- Per-pattern slot array: one optional filename per source directory. -/
abbrev Slots := List (Option String)

/-- The `all_files_by_pattern` dict: insertion-ordered map from base
pattern to its slot array. -/
abbrev PatternMap := List (String × Slots)

/-- Effect of one globbed file on `all_files_by_pattern` (lines 83–102):
a `.json` file with a recognized pattern lands in that pattern's slot for
its directory (initializing `[None] * num_dirs` on first sight of the
pattern), overwriting whatever the slot held. -/
def scanFile (numDirs dirIdx : Nat) (m : PatternMap) (filename : String) : PatternMap :=
  if strEndsWith filename ".json" then
    match extractBasePattern filename with
    | some p =>
      let slots := (assocGet m p).getD (List.replicate numDirs none)
      assocSet m p (slots.set dirIdx (some filename))
    | none => m
  else m

/-- Scan of one directory's listing in enumeration order. -/
def scanDir (numDirs dirIdx : Nat) (m : PatternMap) (files : List String) : PatternMap :=
  files.foldl (scanFile numDirs dirIdx) m

/-- Scan of the remaining directories, `dirIdx` being the index of the
first of them. -/
def scanDirsGo (numDirs : Nat) : Nat → List (List String) → PatternMap → PatternMap
  | _, [], m => m
  | dirIdx, d :: ds, m => scanDirsGo numDirs (dirIdx + 1) ds (scanDir numDirs dirIdx m d)

/-- The pattern map built by `discover_merge_files` from the `*.json`
listings of the configured directories. -/
def scanDirs (dirs : List (List String)) : PatternMap :=
  scanDirsGo dirs.length 0 dirs []

/-- Value held by slot `dirIdx` of pattern `p` (`None` when the pattern is
absent or the slot is empty or out of range). -/
def slotVal (m : PatternMap) (p : String) (dirIdx : Nat) : Option String :=
  match assocGet m p with
  | none => none
  | some slots => (slots.get? dirIdx).getD none

/-- Completeness test of a slot array
(`all(f is not None for f in file_list)`). -/
def slotsComplete (slots : Slots) : Bool :=
  slots.all Option.isSome

/-- The filled slot values, available exactly when every slot is filled. -/
def seqSlots : Slots → Option (List String)
  | [] => some []
  | none :: _ => none
  | some f :: rest => (seqSlots rest).map (f :: ·)

/-- Function `discover_merge_files` (lines 52–127) restricted to its
grouping logic: the file groups, one per pattern whose slots are all
filled, in pattern first-sight order. -/
def discoverMergeFiles (dirs : List (List String)) : List (List String) :=
  (scanDirs dirs).filterMap (fun e => seqSlots e.2)

/-- Patterns counted as incomplete by `discover_merge_files`
(lines 117–120): present in the map with at least one empty slot. -/
def incompletePatterns (dirs : List (List String)) : List String :=
  ((scanDirs dirs).filter (fun e => !slotsComplete e.2)).map Prod.fst

/-- Test that a file participates in pattern `p`: it survives the `*.json`
glob and derives base pattern `p`. -/
def matchesPattern (p f : String) : Bool :=
  strEndsWith f ".json" && (extractBasePattern f == some p)

/-- The files of one directory listing matching pattern `p`, in
enumeration order. -/
def dirMatches (p : String) (files : List String) : List String :=
  files.filter (matchesPattern p)

/-- Left-biased choice on options (`Option.orElse` without the thunk),
used to state the slot-overwrite lemmas. -/
def optOr {α : Type} : Option α → Option α → Option α
  | some a, _ => some a
  | none, b => b

/-- The identifiers resolved (in order, duplicates kept) from a record
stream. -/
def resolvedIds (idField : String) (recs : List Record) : List Value :=
  recs.filterMap (fun r => resolveRecordId r idField)

/-- The values written (in order) to key `k` of the merged record of
identifier `x` by a record stream: the contributions of the records that
resolve to `x` and carry key `k`. -/
def defsIn (idField : String) (x : Value) (k : String) (recs : List Record) : List Value :=
  recs.filterMap (fun r => if resolveRecordId r idField = some x then assocGet r k else none)

/-- Records of an optional merged group (`None` has none). -/
def recordsOf : Option MergedGroup → List Record
  | none => []
  | some mg => mg.records

/-- The identifier-field values appearing in the records of an optional
merged group. -/
def mergedIds (idField : String) (m : Option MergedGroup) : List Value :=
  (recordsOf m).filterMap (fun r => assocGet r idField)

/-- Spec-level description of persist-per-group mode: one write per group
whose merge returns a non-null `MergedGroup`, at the path derived by
`outputFilename`, with the merged records as contents, in group order. -/
def specPersistWrites (idField outputDir : String) :
    Nat → List (List MFile) → List (String × List Record)
  | _, [] => []
  | idx, g :: rest =>
    match mergeSingleGroup g idField idx with
    | .ok (some mg) =>
      (outputDir ++ "/" ++ outputFilename g mg, mg.records) ::
        specPersistWrites idField outputDir (idx + 1) rest
    | _ => specPersistWrites idField outputDir (idx + 1) rest

/-- Invariant of the pattern map: every slot array has one slot per
configured directory. -/
def SlotsWF (n : Nat) (m : PatternMap) : Prop :=
  ∀ e ∈ m, (e.2 : Slots).length = n

/-- Example file used by the counterexample and witness runs: a healthy
member file whose single record resolves via the primary field. -/
def cexOkFile : MFile :=
  ⟨"2020_articles_1_a.json", fun _ => .ok [[("id", .str "a1"), ("x", .num 1)]]⟩

/-- Example file whose single record lacks both identifier fields, so its
group merge raises the missing-identifier `ValueError`. -/
def cexBadFile : MFile :=
  ⟨"2020_articles_1_b.json", fun _ => .ok [[("x", .num 1)]]⟩

/-- Example file whose contents parse to a non-list top-level value on
every attempt. -/
def cexNotListFile : MFile :=
  ⟨"2020_articles_1_n.json", fun _ => .notList⟩

/-- Example file whose first read attempt raises and whose later attempts
succeed (a transient load failure within the retry bound). -/
def cexRetryFile : MFile :=
  ⟨"2020_articles_1_r.json", fun k => if k = 0 then .err else .ok [[("id", .str "r1")]]⟩

/-- Example file every read attempt of which raises (a load failure that
exhausts the retry bound). -/
def cexErrFile : MFile :=
  ⟨"2020_articles_1_e.json", fun _ => .err⟩

/-- Example file whose record carries `ILA_original_filename` with a falsy
(empty-string) value. -/
def cexFalsyNameFile : MFile :=
  ⟨"2020_articles_1_src.json",
   fun _ => .ok [[("id", .str "a1"), ("ILA_original_filename", .str "")]]⟩

/-- Example second member file: same identifier as `cexOkFile` with an
overlapping non-identifier key. -/
def cexOverwriteFile : MFile :=
  ⟨"2020_articles_1_c.json", fun _ => .ok [[("id", .str "a1"), ("x", .num 2)]]⟩

section AssocLemmas

variable {κ ν : Type} [DecidableEq κ]

theorem assocGet_set_self (m : List (κ × ν)) (k : κ) (v : ν) :
    assocGet (assocSet m k v) k = some v := by
  induction m with
  | nil => simp [assocGet, assocSet]
  | cons e rest ih =>
    by_cases h : e.1 = k
    · simp [assocSet, h, assocGet]
    · simp [assocSet, h, assocGet, ih]

theorem assocGet_set_ne (m : List (κ × ν)) (k k' : κ) (v : ν) (h : k' ≠ k) :
    assocGet (assocSet m k v) k' = assocGet m k' := by
  induction m with
  | nil => simp [assocGet, assocSet, Ne.symm h]
  | cons e rest ih =>
    by_cases he : e.1 = k
    · simp [assocSet, he, assocGet, Ne.symm h]
    · by_cases he' : e.1 = k'
      · simp [assocSet, he, assocGet, he', h]
      · simp [assocSet, he, assocGet, he', ih]

theorem assocGet_eq_none_iff (m : List (κ × ν)) (k : κ) :
    assocGet m k = none ↔ k ∉ m.map Prod.fst := by
  induction m with
  | nil => simp [assocGet]
  | cons e rest ih =>
    by_cases h : e.1 = k
    · simp [assocGet, h]
    · simp [assocGet, h, ih, Ne.symm h]

theorem mem_of_assocGet {m : List (κ × ν)} {k : κ} {v : ν}
    (h : assocGet m k = some v) : (k, v) ∈ m := by
  induction m with
  | nil => simp [assocGet] at h
  | cons e rest ih =>
    obtain ⟨a, b⟩ := e
    by_cases he : a = k
    · simp [assocGet, he] at h
      subst he
      subst h
      exact List.mem_cons_self _ _
    · simp [assocGet, he] at h
      exact List.mem_cons_of_mem _ (ih h)

theorem assocGet_of_mem_nodup {m : List (κ × ν)} {k : κ} {v : ν}
    (hnd : (m.map Prod.fst).Nodup) (h : (k, v) ∈ m) :
    assocGet m k = some v := by
  induction m with
  | nil => simp at h
  | cons e rest ih =>
    rw [List.map_cons, List.nodup_cons] at hnd
    obtain ⟨hne, hnd'⟩ := hnd
    rcases List.mem_cons.mp h with h | h
    · rw [← h]
      simp [assocGet]
    · have hk : e.1 ≠ k := by
        intro he
        exact hne (by rw [he]; exact List.mem_map.mpr ⟨(k, v), h, rfl⟩)
      simp [assocGet, hk]
      exact ih hnd' h

theorem mem_assocSet {m : List (κ × ν)} {k : κ} {v : ν} {p : κ × ν}
    (h : p ∈ assocSet m k v) : p = (k, v) ∨ p ∈ m := by
  induction m with
  | nil => simp [assocSet] at h; simp [h]
  | cons e rest ih =>
    by_cases he : e.1 = k
    · simp [assocSet, he] at h
      rcases h with h | h
      · simp [h]
      · right; exact List.mem_cons_of_mem _ h
    · simp [assocSet, he] at h
      rcases h with h | h
      · right; simp [h]
      · rcases ih h with h' | h'
        · simp [h']
        · right; exact List.mem_cons_of_mem _ h'

theorem assocSet_keys (m : List (κ × ν)) (k : κ) (v : ν) :
    (assocSet m k v).map Prod.fst =
      if k ∈ m.map Prod.fst then m.map Prod.fst else m.map Prod.fst ++ [k] := by
  induction m with
  | nil => simp [assocSet]
  | cons e rest ih =>
    by_cases he : e.1 = k
    · simp [assocSet, he]
    · simp only [assocSet, if_neg he, List.map_cons]
      rw [ih]
      by_cases hk : k ∈ rest.map Prod.fst
      · simp [hk, Ne.symm he]
      · simp [hk, Ne.symm he]

theorem assocSet_keys_nodup {m : List (κ × ν)} (k : κ) (v : ν)
    (h : (m.map Prod.fst).Nodup) : ((assocSet m k v).map Prod.fst).Nodup := by
  rw [assocSet_keys]
  by_cases hk : k ∈ m.map Prod.fst
  · simpa [hk] using h
  · simp only [if_neg hk]
    exact List.Nodup.append h (List.nodup_singleton k) (by simpa using hk)

theorem assocGet_eq_of_mem_nodup_pair {m : List (κ × ν)} {k : κ} {v₁ v₂ : ν}
    (hnd : (m.map Prod.fst).Nodup) (h₁ : (k, v₁) ∈ m) (h₂ : (k, v₂) ∈ m) :
    v₁ = v₂ := by
  have e₁ := assocGet_of_mem_nodup hnd h₁
  have e₂ := assocGet_of_mem_nodup hnd h₂
  rw [e₁] at e₂
  exact Option.some.inj e₂

end AssocLemmas

section OptLemmas

variable {α : Type}

theorem optOr_some (a : α) (b : Option α) : optOr (some a) b = some a := rfl

theorem optOr_none (b : Option α) : optOr none b = b := rfl

theorem optOr_assoc (a b c : Option α) :
    optOr (optOr a b) c = optOr a (optOr b c) := by
  cases a <;> rfl

theorem optOr_none_right (a : Option α) : optOr a none = a := by
  cases a <;> rfl

theorem getLast?_cons_optOr (a : α) (l : List α) :
    (a :: l).getLast? = optOr l.getLast? (some a) := by
  cases l with
  | nil => rfl
  | cons b l' =>
    rw [List.getLast?_cons_cons]
    obtain ⟨c, hc⟩ :=
      Option.isSome_iff_exists.mp (List.getLast?_isSome.mpr (List.cons_ne_nil b l'))
    rw [hc]
    rfl

theorem getLast?_append_optOr (l₁ l₂ : List α) :
    (l₁ ++ l₂).getLast? = optOr l₂.getLast? l₁.getLast? := by
  induction l₁ with
  | nil => simp [optOr_none_right]
  | cons a l₁ ih =>
    rw [List.cons_append, getLast?_cons_optOr, ih, getLast?_cons_optOr, optOr_assoc]

end OptLemmas

section RecordLemmas

theorem addRecordData_get_id (t : Record) (s : Record) (idField : String) :
    assocGet (addRecordData t s idField) idField = assocGet t idField := by
  induction s generalizing t with
  | nil => rfl
  | cons kv s' ih =>
    show assocGet (addRecordData (if kv.1 = idField then t else assocSet t kv.1 kv.2) s' idField)
        idField = _
    by_cases h : kv.1 = idField
    · rw [if_pos h, ih]
    · rw [if_neg h, ih, assocGet_set_ne _ _ _ _ (fun he => h he.symm)]

theorem addRecordData_get_ne (t : Record) (s : Record) (idField k : String)
    (hk : k ≠ idField) (hwf : RecordWF s) :
    assocGet (addRecordData t s idField) k = optOr (assocGet s k) (assocGet t k) := by
  induction s generalizing t with
  | nil => simp [addRecordData, assocGet, optOr]
  | cons kv s' ih =>
    rw [RecordWF, List.map_cons, List.nodup_cons] at hwf
    obtain ⟨hnm, hwf'⟩ := hwf
    show assocGet (addRecordData (if kv.1 = idField then t else assocSet t kv.1 kv.2) s' idField)
        k = optOr (assocGet (kv :: s') k) (assocGet t k)
    by_cases h : kv.1 = idField
    · rw [if_pos h, ih _ hwf']
      have : assocGet (kv :: s') k = assocGet s' k := by
        simp [assocGet, fun he : kv.1 = k => hk (h ▸ he ▸ rfl)]
        intro he
        exact absurd (h ▸ he ▸ rfl) hk
      rw [this]
    · rw [if_neg h, ih _ hwf']
      by_cases hke : kv.1 = k
      · have h1 : assocGet s' k = none := by
          rw [assocGet_eq_none_iff]
          intro hmem
          exact hnm (hke ▸ hmem)
        have h2 : assocGet (assocSet t kv.1 kv.2) k = some kv.2 := by
          rw [← hke]
          exact assocGet_set_self t kv.1 kv.2
        rw [h1, h2, optOr_none]
        have h3 : assocGet (kv :: s') k = some kv.2 := by simp [assocGet, hke]
        rw [h3, optOr_some]
      · have h2 : assocGet (assocSet t kv.1 kv.2) k = assocGet t k :=
          assocGet_set_ne t kv.1 k kv.2 (fun he => hke he.symm)
        have h3 : assocGet (kv :: s') k = assocGet s' k := by simp [assocGet, hke]
        rw [h2, h3]

theorem foldRecords_nil (idField : String) (byId : List (Value × Record)) :
    foldRecords idField byId [] = byId := rfl

theorem foldRecords_cons (idField : String) (byId : List (Value × Record))
    (r : Record) (rest : List Record) :
    foldRecords idField byId (r :: rest) = foldRecords idField (foldRecord idField byId r) rest :=
  rfl

theorem foldRecords_append (idField : String) (byId : List (Value × Record))
    (l₁ l₂ : List Record) :
    foldRecords idField byId (l₁ ++ l₂) = foldRecords idField (foldRecords idField byId l₁) l₂ :=
  List.foldl_append _ _ _ _

theorem resolvedIds_cons (idField : String) (r : Record) (rest : List Record) :
    resolvedIds idField (r :: rest) =
      match resolveRecordId r idField with
      | none => resolvedIds idField rest
      | some rid => rid :: resolvedIds idField rest := by
  cases h : resolveRecordId r idField <;> simp [resolvedIds, List.filterMap_cons, h]

theorem foldRecords_get_none_iff (idField : String) (recs : List Record)
    (byId : List (Value × Record)) (x : Value) :
    assocGet (foldRecords idField byId recs) x = none ↔
      assocGet byId x = none ∧ x ∉ resolvedIds idField recs := by
  induction recs generalizing byId with
  | nil => simp [foldRecords_nil, resolvedIds]
  | cons r rest ih =>
    rw [foldRecords_cons]
    cases h : resolveRecordId r idField with
    | none =>
      simp only [foldRecord, h, resolvedIds_cons]
      exact ih byId
    | some rid =>
      simp only [foldRecord, h, resolvedIds_cons]
      rw [ih]
      by_cases hx : x = rid
      · subst hx
        simp [assocGet_set_self]
      · rw [assocGet_set_ne _ _ _ _ hx]
        simp [hx]

theorem foldRecord_get_none_variant (idField : String) (r : Record)
    (byId : List (Value × Record)) (x : Value) :
    assocGet (foldRecords idField byId [r]) x = none ↔
      assocGet byId x = none ∧ x ∉ resolvedIds idField [r] :=
  foldRecords_get_none_iff idField [r] byId x

theorem foldRecords_id_field (idField : String) (recs : List Record)
    (byId : List (Value × Record))
    (hinit : ∀ p ∈ byId, assocGet p.2 idField = some p.1) :
    ∀ p ∈ foldRecords idField byId recs, assocGet p.2 idField = some p.1 := by
  induction recs generalizing byId with
  | nil => exact hinit
  | cons r rest ih =>
    rw [foldRecords_cons]
    cases h : resolveRecordId r idField with
    | none =>
      simp only [foldRecord, h]
      exact ih byId hinit
    | some rid =>
      simp only [foldRecord, h]
      apply ih
      intro p hp
      rcases mem_assocSet hp with hp | hp
      · subst hp
        rw [addRecordData_get_id]
        cases ht : assocGet byId rid with
        | none => simp [ht, assocGet]
        | some t =>
          simp only [ht, Option.getD_some]
          exact hinit (rid, t) (mem_of_assocGet ht)
      · exact hinit p hp

theorem foldRecords_keys_nodup (idField : String) (recs : List Record)
    (byId : List (Value × Record)) (h : (byId.map Prod.fst).Nodup) :
    ((foldRecords idField byId recs).map Prod.fst).Nodup := by
  induction recs generalizing byId with
  | nil => exact h
  | cons r rest ih =>
    rw [foldRecords_cons]
    cases hr : resolveRecordId r idField with
    | none => simp only [foldRecord, hr]; exact ih byId h
    | some rid =>
      simp only [foldRecord, hr]
      exact ih _ (assocSet_keys_nodup _ _ h)

theorem defsIn_cons (idField : String) (x : Value) (k : String)
    (r : Record) (rest : List Record) :
    defsIn idField x k (r :: rest) =
      (if resolveRecordId r idField = some x then
        match assocGet r k with
        | some v => v :: defsIn idField x k rest
        | none => defsIn idField x k rest
       else defsIn idField x k rest) := by
  by_cases h : resolveRecordId r idField = some x
  · cases hg : assocGet r k <;> simp [defsIn, List.filterMap_cons, h, hg]
  · simp [defsIn, List.filterMap_cons, h]

theorem foldRecords_get_value (idField k : String) (hk : k ≠ idField)
    (recs : List Record) (hwf : ∀ r ∈ recs, RecordWF r)
    (byId : List (Value × Record)) (x : Value) (rec : Record)
    (hget : assocGet (foldRecords idField byId recs) x = some rec) :
    assocGet rec k =
      optOr (defsIn idField x k recs).getLast?
        ((assocGet byId x).bind (fun r0 => assocGet r0 k)) := by
  induction recs generalizing byId with
  | nil =>
    rw [foldRecords_nil] at hget
    rw [hget]
    simp [defsIn, optOr_none]
  | cons r rest ih =>
    rw [foldRecords_cons] at hget
    have hwfr := hwf r (List.mem_cons_self r rest)
    have hwf' : ∀ r' ∈ rest, RecordWF r' := fun r' hr' => hwf r' (List.mem_cons_of_mem _ hr')
    cases hr : resolveRecordId r idField with
    | none =>
      simp only [foldRecord, hr] at hget
      rw [defsIn_cons]
      have : ¬(resolveRecordId r idField = some x) := by simp [hr]
      rw [if_neg this]
      exact ih hwf' byId hget
    | some rid =>
      simp only [foldRecord, hr] at hget
      by_cases hx : x = rid
      · subst hx
        have heq := ih hwf' _ hget
        rw [heq, assocGet_set_self]
        have hbind : (some (addRecordData ((assocGet byId x).getD [(idField, x)]) r idField)).bind
            (fun r0 => assocGet r0 k) =
            assocGet (addRecordData ((assocGet byId x).getD [(idField, x)]) r idField) k := rfl
        rw [hbind]
        have htarget : assocGet ((assocGet byId x).getD [(idField, x)]) k =
            (assocGet byId x).bind (fun r0 => assocGet r0 k) := by
          cases ht : assocGet byId x with
          | none => simp [assocGet, Ne.symm hk]
          | some t => simp [ht]
        rw [addRecordData_get_ne _ _ _ _ hk hwfr, htarget]
        rw [defsIn_cons, if_pos hr]
        cases hg : assocGet r k with
        | none =>
          show optOr (defsIn idField x k rest).getLast?
              (optOr none ((assocGet byId x).bind fun r0 => assocGet r0 k)) =
            optOr (defsIn idField x k rest).getLast?
              ((assocGet byId x).bind fun r0 => assocGet r0 k)
          rw [optOr_none]
        | some v =>
          show optOr (defsIn idField x k rest).getLast?
              (optOr (some v) ((assocGet byId x).bind fun r0 => assocGet r0 k)) =
            optOr (v :: defsIn idField x k rest).getLast?
              ((assocGet byId x).bind fun r0 => assocGet r0 k)
          rw [getLast?_cons_optOr, optOr_assoc]
      · have heq := ih hwf' _ hget
        rw [heq, assocGet_set_ne _ _ _ _ hx, defsIn_cons]
        have hne : ¬(resolveRecordId r idField = some x) := by
          rw [hr]
          exact fun hcon => hx (Option.some.inj hcon).symm
        rw [if_neg hne]

theorem filterMap_id_of_pairs (idField : String) (m : List (Value × Record))
    (h : ∀ p ∈ m, assocGet p.2 idField = some p.1) :
    (m.map Prod.snd).filterMap (fun r => assocGet r idField) = m.map Prod.fst := by
  induction m with
  | nil => rfl
  | cons p m' ih =>
    simp only [List.map_cons, List.filterMap_cons]
    rw [h p (List.mem_cons_self p m')]
    rw [ih (fun q hq => h q (List.mem_cons_of_mem _ hq))]

end RecordLemmas

section LinkLemmas

theorem mergeRecordsList_eq_fold (idField fileName : String)
    (recs : List Record) (byId : List (Value × Record))
    (h : ∀ r ∈ recs, (resolveRecordId r idField).isSome = true) :
    mergeRecordsList idField fileName byId recs = .ok (foldRecords idField byId recs) := by
  induction recs generalizing byId with
  | nil => rfl
  | cons r rest ih =>
    obtain ⟨rid, hrid⟩ :=
      Option.isSome_iff_exists.mp (h r (List.mem_cons_self r rest))
    have hstep : foldRecord idField byId r =
        assocSet byId rid (addRecordData ((assocGet byId rid).getD [(idField, rid)]) r idField) := by
      simp only [foldRecord, hrid]
    simp only [mergeRecordsList, hrid]
    rw [foldRecords_cons, hstep]
    exact ih _ (fun r' hr' => h r' (List.mem_cons_of_mem _ hr'))

theorem mergeGroupGo_eq_fold (idField : String)
    (group : List MFile) (files : List (List Record)) (byId : List (Value × Record))
    (hload : group.map (fun f => loadJsonFile f) = files.map (fun rs => Except.ok (some rs)))
    (hres : ∀ recs ∈ files, ∀ r ∈ recs, (resolveRecordId r idField).isSome = true) :
    mergeGroupGo idField byId group = .ok (foldRecords idField byId files.flatten) := by
  induction group generalizing files byId with
  | nil =>
    cases files with
    | nil => rfl
    | cons rs fs => simp at hload
  | cons f gs ih =>
    cases files with
    | nil => simp at hload
    | cons rs fs =>
      simp only [List.map_cons, List.cons.injEq] at hload
      obtain ⟨hf, hgs⟩ := hload
      simp only [mergeGroupGo, hf,
        mergeRecordsList_eq_fold idField f.name rs byId (hres rs (List.mem_cons_self rs fs))]
      rw [List.flatten_cons, foldRecords_append]
      exact ih fs _ hgs (fun recs hr => hres recs (List.mem_cons_of_mem _ hr))

theorem resolvedIds_append (idField : String) (l₁ l₂ : List Record) :
    resolvedIds idField (l₁ ++ l₂) = resolvedIds idField l₁ ++ resolvedIds idField l₂ := by
  simp [resolvedIds, List.filterMap_append]

theorem defsIn_append (idField : String) (x : Value) (k : String) (l₁ l₂ : List Record) :
    defsIn idField x k (l₁ ++ l₂) = defsIn idField x k l₁ ++ defsIn idField x k l₂ := by
  simp [defsIn, List.filterMap_append]

theorem mem_resolvedIds_join (idField : String) (files : List (List Record)) (v : Value) :
    v ∈ resolvedIds idField files.flatten ↔
      ∃ recs ∈ files, ∃ r ∈ recs, resolveRecordId r idField = some v := by
  constructor
  · intro h
    obtain ⟨r, hr, hres⟩ := List.mem_filterMap.mp h
    obtain ⟨recs, hrecs, hrrecs⟩ := List.mem_flatten.mp hr
    exact ⟨recs, hrecs, r, hrrecs, hres⟩
  · intro ⟨recs, hrecs, r, hrrecs, hres⟩
    exact List.mem_filterMap.mpr ⟨r, List.mem_flatten.mpr ⟨recs, hrecs, hrrecs⟩, hres⟩

theorem defsIn_nonempty_resolved (idField : String) (x : Value) (k : String)
    (recs : List Record) (h : defsIn idField x k recs ≠ []) :
    ∃ r ∈ recs, resolveRecordId r idField = some x := by
  obtain ⟨v, hv⟩ := List.exists_mem_of_ne_nil _ h
  obtain ⟨r, hr, hcond⟩ := List.mem_filterMap.mp hv
  refine ⟨r, hr, ?_⟩
  by_cases hc : resolveRecordId r idField = some x
  · exact hc
  · rw [if_neg hc] at hcond
    exact absurd hcond (by simp)

theorem join_defsIn_getLast (idField : String) (x : Value) (k : String)
    (files : List (List Record)) (j : Nat) (v : Value)
    (hj : j < files.length)
    (hlast : (defsIn idField x k (files.getD j [])).getLast? = some v)
    (hafter : ∀ j', j < j' → j' < files.length → defsIn idField x k (files.getD j' []) = []) :
    (defsIn idField x k files.flatten).getLast? = some v := by
  induction files generalizing j with
  | nil => simp at hj
  | cons l fs ih =>
    rw [List.flatten_cons, defsIn_append, getLast?_append_optOr]
    cases j with
    | zero =>
      have hfs : defsIn idField x k fs.flatten = [] := by
        have hall : ∀ l' ∈ fs, defsIn idField x k l' = [] := by
          intro l' hl'
          obtain ⟨idx, hidx⟩ := List.mem_iff_get?.mp hl'
          have hidxlt : idx < fs.length := by
            by_contra hge
            rw [List.get?_eq_none.mpr (Nat.le_of_not_lt hge)] at hidx
            exact Option.noConfusion hidx
          have := hafter (idx + 1) (Nat.succ_pos idx) (by simpa using Nat.succ_lt_succ hidxlt)
          rwa [List.getD_cons_succ, List.getD_eq_get?, hidx, Option.getD_some] at this
        rw [show defsIn idField x k fs.flatten = List.filterMap _ fs.flatten from rfl]
        rw [List.filterMap_eq_nil]
        intro r hr
        obtain ⟨l', hl', hrl'⟩ := List.mem_flatten.mp hr
        have : defsIn idField x k l' = [] := hall l' hl'
        rw [show defsIn idField x k l' = List.filterMap _ l' from rfl, List.filterMap_eq_nil] at this
        exact this r hrl'
      rw [hfs]
      simp only [List.getLast?_nil, optOr_none]
      rwa [List.getD_cons_zero] at hlast
    | succ j' =>
      have hj' : j' < fs.length := by simpa using Nat.lt_of_succ_lt_succ hj
      have hlast' : (defsIn idField x k (fs.getD j' [])).getLast? = some v := by
        rwa [List.getD_cons_succ] at hlast
      have hafter' : ∀ i', j' < i' → i' < fs.length → defsIn idField x k (fs.getD i' []) = [] := by
        intro i' h1 h2
        have := hafter (i' + 1) (Nat.succ_lt_succ h1) (by simpa using Nat.succ_lt_succ h2)
        rwa [List.getD_cons_succ] at this
      rw [ih j' hj' hlast' hafter']
      rfl

end LinkLemmas

section OrchestratorLemmas

theorem processGroup_ok (idField : String) (save append : Bool) (outputDir : String)
    (idx : Nat) (g : List MFile) (v : Option MergedGroup)
    (hv : mergeSingleGroup g idField idx = .ok v) :
    ∃ res ws, processGroup idField save append outputDir idx g = .ok (res, ws) := by
  cases v with
  | none => exact ⟨none, [], by simp [processGroup, hv]⟩
  | some mg =>
    by_cases hs : save
    · exact ⟨some (.savedPath (outputDir ++ "/" ++ outputFilename g mg)),
        [(outputDir ++ "/" ++ outputFilename g mg, mg.records)], by simp [processGroup, hv, hs]⟩
    · by_cases ha : append
      · exact ⟨some (.mergedGroup mg), [], by simp [processGroup, hv, hs, ha]⟩
      · exact ⟨some (.placeholder idx), [], by simp [processGroup, hv, hs, ha]⟩

theorem processGroup_error (idField : String) (save append : Bool) (outputDir : String)
    (idx : Nat) (g : List MFile) (e : GroupErr)
    (he : mergeSingleGroup g idField idx = .error e) :
    processGroup idField save append outputDir idx g = .error e := by
  simp [processGroup, he]

theorem mergeFilesGo_error (idField : String) (save append : Bool) (outputDir : String) :
    ∀ (gs : List (List MFile)) (s j : Nat) (e : GroupErr),
      (∀ i, i < j → ∃ v, mergeSingleGroup (gs.getD i []) idField (s + i) = .ok v) →
      j < gs.length →
      mergeSingleGroup (gs.getD j []) idField (s + j) = .error e →
      (mergeFilesGo idField save append outputDir s gs).1 = .error e := by
  intro gs
  induction gs with
  | nil => intro s j e _ hj _; simp at hj
  | cons g rest ih =>
    intro s j e hok hj he
    cases j with
    | zero =>
      rw [List.getD_cons_zero, Nat.add_zero] at he
      simp [mergeFilesGo, processGroup_error idField save append outputDir s g e he]
    | succ j' =>
      obtain ⟨v, hv⟩ := hok 0 (Nat.succ_pos j')
      rw [List.getD_cons_zero, Nat.add_zero] at hv
      obtain ⟨res, ws, hpg⟩ := processGroup_ok idField save append outputDir s g v hv
      have hok' : ∀ i, i < j' →
          ∃ v, mergeSingleGroup (rest.getD i []) idField (s + 1 + i) = .ok v := by
        intro i hi
        obtain ⟨v', hv'⟩ := hok (i + 1) (Nat.succ_lt_succ hi)
        rw [List.getD_cons_succ] at hv'
        have harith : s + (i + 1) = s + 1 + i := by omega
        rw [harith] at hv'
        exact ⟨v', hv'⟩
      have he' : mergeSingleGroup (rest.getD j' []) idField (s + 1 + j') = .error e := by
        rw [List.getD_cons_succ] at he
        have harith : s + (j' + 1) = s + 1 + j' := by omega
        rwa [harith] at he
      have h1 := ih (s + 1) j' e hok' (by simpa using Nat.lt_of_succ_lt_succ hj) he'
      rcases hmr : mergeFilesGo idField save append outputDir (s + 1) rest with ⟨r, ws'⟩
      rw [hmr] at h1
      simp only at h1
      simp [mergeFilesGo, hpg, hmr, h1]

theorem mergeFilesGo_no_save_writes (idField : String) (append : Bool) (outputDir : String) :
    ∀ (gs : List (List MFile)) (s : Nat),
      (mergeFilesGo idField false append outputDir s gs).2 = [] := by
  intro gs
  induction gs with
  | nil => intro s; rfl
  | cons g rest ih =>
    intro s
    have hrec := ih (s + 1)
    rcases hmr : mergeFilesGo idField false append outputDir (s + 1) rest with ⟨r, ws'⟩
    rw [hmr] at hrec
    simp only at hrec
    subst hrec
    cases hms : mergeSingleGroup g idField s with
    | error e =>
      simp [mergeFilesGo, processGroup_error idField false append outputDir s g e hms]
    | ok v =>
      cases v with
      | none =>
        have hpg : processGroup idField false append outputDir s g = .ok (none, []) := by
          simp [processGroup, hms]
        cases r <;> simp [mergeFilesGo, hpg, hmr]
      | some mg =>
        by_cases ha : append
        · have hpg : processGroup idField false append outputDir s g =
              .ok (some (.mergedGroup mg), []) := by
            simp [processGroup, hms, ha]
          cases r <;> simp [mergeFilesGo, hpg, hmr]
        · have hpg : processGroup idField false append outputDir s g =
              .ok (some (.placeholder s), []) := by
            simp [processGroup, hms, ha]
          cases r <;> simp [mergeFilesGo, hpg, hmr]

theorem mergeFilesGo_accumulate_shape (idField : String) (outputDir : String) :
    ∀ (gs : List (List MFile)) (s : Nat) (rs : List MergeResult),
      (mergeFilesGo idField false true outputDir s gs).1 = .ok rs →
      ∀ r ∈ rs, ∃ mg, r = .mergedGroup mg := by
  intro gs
  induction gs with
  | nil =>
    intro s rs h r hr
    simp only [mergeFilesGo] at h
    cases h
    simp at hr
  | cons g rest ih =>
    intro s rs h r hr
    rcases hmr : mergeFilesGo idField false true outputDir (s + 1) rest with ⟨r', ws'⟩
    cases hms : mergeSingleGroup g idField s with
    | error e =>
      rw [show (mergeFilesGo idField false true outputDir s (g :: rest)).1 = .error e by
        simp [mergeFilesGo, processGroup_error idField false true outputDir s g e hms]] at h
      exact absurd h (by simp)
    | ok v =>
      cases v with
      | none =>
        have hpg : processGroup idField false true outputDir s g = .ok (none, []) := by
          simp [processGroup, hms]
        cases r' with
        | error e => simp [mergeFilesGo, hpg, hmr] at h
        | ok rs' =>
          simp only [mergeFilesGo, hpg, hmr] at h
          cases h
          exact ih (s + 1) rs (by rw [hmr]) r hr
      | some mg =>
        have hpg : processGroup idField false true outputDir s g =
            .ok (some (.mergedGroup mg), []) := by
          simp [processGroup, hms]
        cases r' with
        | error e => simp [mergeFilesGo, hpg, hmr] at h
        | ok rs' =>
          simp only [mergeFilesGo, hpg, hmr] at h
          cases h
          rcases List.mem_cons.mp hr with hr | hr
          · exact ⟨mg, hr⟩
          · exact ih (s + 1) rs' (by rw [hmr]) r hr

theorem mergeFilesGo_indexonly_shape (idField : String) (outputDir : String) :
    ∀ (gs : List (List MFile)) (s : Nat) (rs : List MergeResult),
      (mergeFilesGo idField false false outputDir s gs).1 = .ok rs →
      ∀ r ∈ rs, ∃ i, r = .placeholder i := by
  intro gs
  induction gs with
  | nil =>
    intro s rs h r hr
    simp only [mergeFilesGo] at h
    cases h
    simp at hr
  | cons g rest ih =>
    intro s rs h r hr
    rcases hmr : mergeFilesGo idField false false outputDir (s + 1) rest with ⟨r', ws'⟩
    cases hms : mergeSingleGroup g idField s with
    | error e =>
      rw [show (mergeFilesGo idField false false outputDir s (g :: rest)).1 = .error e by
        simp [mergeFilesGo, processGroup_error idField false false outputDir s g e hms]] at h
      exact absurd h (by simp)
    | ok v =>
      cases v with
      | none =>
        have hpg : processGroup idField false false outputDir s g = .ok (none, []) := by
          simp [processGroup, hms]
        cases r' with
        | error e => simp [mergeFilesGo, hpg, hmr] at h
        | ok rs' =>
          simp only [mergeFilesGo, hpg, hmr] at h
          cases h
          exact ih (s + 1) rs (by rw [hmr]) r hr
      | some mg =>
        have hpg : processGroup idField false false outputDir s g =
            .ok (some (.placeholder s), []) := by
          simp [processGroup, hms]
        cases r' with
        | error e => simp [mergeFilesGo, hpg, hmr] at h
        | ok rs' =>
          simp only [mergeFilesGo, hpg, hmr] at h
          cases h
          rcases List.mem_cons.mp hr with hr | hr
          · exact ⟨s, hr⟩
          · exact ih (s + 1) rs' (by rw [hmr]) r hr

theorem mergeFilesGo_persist (idField : String) (append : Bool) (outputDir : String) :
    ∀ (gs : List (List MFile)) (s : Nat),
      (∀ i, i < gs.length → ∃ v, mergeSingleGroup (gs.getD i []) idField (s + i) = .ok v) →
      mergeFilesGo idField true append outputDir s gs =
        (.ok ((specPersistWrites idField outputDir s gs).map (fun w => .savedPath w.1)),
         specPersistWrites idField outputDir s gs) := by
  intro gs
  induction gs with
  | nil => intro s _; rfl
  | cons g rest ih =>
    intro s hok
    obtain ⟨v, hv⟩ := hok 0 (Nat.succ_pos rest.length)
    rw [List.getD_cons_zero, Nat.add_zero] at hv
    have hok' : ∀ i, i < rest.length →
        ∃ v, mergeSingleGroup (rest.getD i []) idField (s + 1 + i) = .ok v := by
      intro i hi
      obtain ⟨v', hv'⟩ := hok (i + 1) (by simpa using Nat.succ_lt_succ hi)
      rw [List.getD_cons_succ] at hv'
      have harith : s + (i + 1) = s + 1 + i := by omega
      rw [harith] at hv'
      exact ⟨v', hv'⟩
    have hrec := ih (s + 1) hok'
    cases v with
    | none =>
      have hpg : processGroup idField true append outputDir s g = .ok (none, []) := by
        simp [processGroup, hv]
      simp only [mergeFilesGo, hpg, hrec, specPersistWrites, hv, List.nil_append]
    | some mg =>
      have hpg : processGroup idField true append outputDir s g =
          .ok (some (.savedPath (outputDir ++ "/" ++ outputFilename g mg)),
               [(outputDir ++ "/" ++ outputFilename g mg, mg.records)]) := by
        simp [processGroup, hv]
      simp only [mergeFilesGo, hpg, hrec, specPersistWrites, hv, List.map_cons]
      rfl

end OrchestratorLemmas

section ScanLemmas

theorem scanFile_wf (n i : Nat) (m : PatternMap) (f : String) (h : SlotsWF n m) :
    SlotsWF n (scanFile n i m f) := by
  unfold scanFile
  by_cases hj : strEndsWith f ".json"
  · simp only [hj, if_true]
    cases hp : extractBasePattern f with
    | none => exact h
    | some p =>
      intro e he
      rcases mem_assocSet he with he | he
      · rw [he]
        show (((assocGet m p).getD (List.replicate n none)).set i (some f)).length = n
        rw [List.length_set]
        cases hg : assocGet m p with
        | none => simp
        | some slots =>
          simp only [Option.getD_some]
          exact h (p, slots) (mem_of_assocGet hg)
      · exact h e he
  · simp only [hj, if_false]
    exact h

theorem scanDir_wf (n i : Nat) (files : List String) :
    ∀ (m : PatternMap), SlotsWF n m → SlotsWF n (scanDir n i m files) := by
  induction files with
  | nil => intro m h; exact h
  | cons f rest ih =>
    intro m h
    exact ih _ (scanFile_wf n i m f h)

theorem scanDirsGo_wf (n : Nat) (ds : List (List String)) :
    ∀ (s : Nat) (m : PatternMap), SlotsWF n m → SlotsWF n (scanDirsGo n s ds m) := by
  induction ds with
  | nil => intro s m h; exact h
  | cons d rest ih =>
    intro s m h
    exact ih (s + 1) _ (scanDir_wf n s d m h)

theorem scanDirs_wf (dirs : List (List String)) :
    SlotsWF dirs.length (scanDirs dirs) :=
  scanDirsGo_wf dirs.length dirs 0 [] (by intro e he; simp at he)

theorem scanFile_keys_nodup (n i : Nat) (m : PatternMap) (f : String)
    (h : (m.map Prod.fst).Nodup) : ((scanFile n i m f).map Prod.fst).Nodup := by
  unfold scanFile
  by_cases hj : strEndsWith f ".json"
  · simp only [hj, if_true]
    cases hp : extractBasePattern f with
    | none => exact h
    | some p => exact assocSet_keys_nodup _ _ h
  · simp only [hj, if_false]
    exact h

theorem scanDir_keys_nodup (n i : Nat) (files : List String) :
    ∀ (m : PatternMap), (m.map Prod.fst).Nodup → ((scanDir n i m files).map Prod.fst).Nodup := by
  induction files with
  | nil => intro m h; exact h
  | cons f rest ih =>
    intro m h
    exact ih _ (scanFile_keys_nodup n i m f h)

theorem scanDirsGo_keys_nodup (n : Nat) (ds : List (List String)) :
    ∀ (s : Nat) (m : PatternMap), (m.map Prod.fst).Nodup →
      ((scanDirsGo n s ds m).map Prod.fst).Nodup := by
  induction ds with
  | nil => intro s m h; exact h
  | cons d rest ih =>
    intro s m h
    exact ih (s + 1) _ (scanDir_keys_nodup n s d m h)

theorem scanDirs_keys_nodup (dirs : List (List String)) :
    ((scanDirs dirs).map Prod.fst).Nodup :=
  scanDirsGo_keys_nodup dirs.length dirs 0 [] (by simp)

theorem scanFile_slotVal_self (n i : Nat) (m : PatternMap) (f p : String)
    (hwf : SlotsWF n m) (hi : i < n) :
    slotVal (scanFile n i m f) p i =
      if matchesPattern p f then some f else slotVal m p i := by
  by_cases hj : strEndsWith f ".json"
  · cases hp : extractBasePattern f with
    | none => simp [scanFile, hj, hp, matchesPattern]
    | some q =>
      by_cases hq : q = p
      · subst hq
        have hm : matchesPattern q f = true := by simp [matchesPattern, hj, hp]
        rw [hm, if_pos rfl]
        have hlen : ((assocGet m q).getD (List.replicate n none)).length = n := by
          cases hg : assocGet m q with
          | none => simp
          | some slots =>
            simp only [Option.getD_some]
            exact hwf (q, slots) (mem_of_assocGet hg)
        simp only [scanFile, hj, if_true, hp, slotVal, assocGet_set_self]
        rw [List.get?_eq_getElem?, List.getElem?_set_self (by rw [hlen]; exact hi)]
        rfl
      · have hm : matchesPattern p f = false := by
          simp [matchesPattern, hj, hp]
          exact fun hc => hq hc
        rw [hm]
        simp only [scanFile, hj, if_true, hp, slotVal, Bool.false_eq_true, if_false]
        rw [assocGet_set_ne _ _ _ _ (fun hc => hq hc.symm)]
  · have hm : matchesPattern p f = false := by simp [matchesPattern, hj]
    rw [hm]
    simp [scanFile, hj]

theorem scanFile_slotVal_other (n i j : Nat) (m : PatternMap) (f p : String)
    (hij : j ≠ i) :
    slotVal (scanFile n i m f) p j = slotVal m p j := by
  by_cases hj : strEndsWith f ".json"
  · cases hp : extractBasePattern f with
    | none => simp [scanFile, hj, hp]
    | some q =>
      by_cases hq : q = p
      · subst hq
        simp only [scanFile, hj, if_true, hp, slotVal, assocGet_set_self]
        rw [List.get?_eq_getElem?, List.getElem?_set_ne (fun hc => hij hc.symm)]
        cases hg : assocGet m q with
        | none =>
          simp only [hg, Option.getD_none]
          rw [List.getElem?_replicate]
          by_cases hjn : j < n <;> simp [hjn]
        | some slots =>
          simp only [hg, Option.getD_some]
          rw [List.get?_eq_getElem?]
      · simp only [scanFile, hj, if_true, hp, slotVal]
        rw [assocGet_set_ne _ _ _ _ (fun hc => hq hc.symm)]
  · simp [scanFile, hj]

theorem scanDir_slotVal_self (n i : Nat) (files : List String) (p : String) :
    ∀ (m : PatternMap), SlotsWF n m → i < n →
      slotVal (scanDir n i m files) p i =
        optOr (dirMatches p files).getLast? (slotVal m p i) := by
  induction files with
  | nil => intro m _ _; simp [scanDir, dirMatches, optOr_none]
  | cons f rest ih =>
    intro m hwf hi
    show slotVal (scanDir n i (scanFile n i m f) rest) p i = _
    rw [ih _ (scanFile_wf n i m f hwf) hi, scanFile_slotVal_self n i m f p hwf hi]
    by_cases hm : matchesPattern p f
    · have : dirMatches p (f :: rest) = f :: dirMatches p rest := by
        simp [dirMatches, List.filter_cons, hm]
      rw [this, if_pos hm, getLast?_cons_optOr, optOr_assoc, optOr_some]
    · have : dirMatches p (f :: rest) = dirMatches p rest := by
        simp [dirMatches, List.filter_cons, hm]
      rw [this, if_neg hm]

theorem scanDir_slotVal_other (n i j : Nat) (files : List String) (p : String)
    (hij : j ≠ i) :
    ∀ (m : PatternMap), slotVal (scanDir n i m files) p j = slotVal m p j := by
  induction files with
  | nil => intro m; rfl
  | cons f rest ih =>
    intro m
    show slotVal (scanDir n i (scanFile n i m f) rest) p j = _
    rw [ih _, scanFile_slotVal_other n i j m f p hij]

theorem scanDirsGo_slotVal_lt (n : Nat) (ds : List (List String)) (p : String) :
    ∀ (s j : Nat) (m : PatternMap), j < s →
      slotVal (scanDirsGo n s ds m) p j = slotVal m p j := by
  induction ds with
  | nil => intro s j m _; rfl
  | cons d rest ih =>
    intro s j m hj
    show slotVal (scanDirsGo n (s + 1) rest (scanDir n s m d)) p j = _
    rw [ih (s + 1) j _ (Nat.lt_succ_of_lt hj),
      scanDir_slotVal_other n s j d p (Nat.ne_of_lt hj)]

theorem scanDirsGo_slotVal (n : Nat) (ds : List (List String)) (p : String) :
    ∀ (s i : Nat) (m : PatternMap), SlotsWF n m → s ≤ i → i - s < ds.length → i < n →
      slotVal (scanDirsGo n s ds m) p i =
        optOr (dirMatches p (ds.getD (i - s) [])).getLast? (slotVal m p i) := by
  induction ds with
  | nil => intro s i m _ _ h _; simp at h
  | cons d rest ih =>
    intro s i m hwf hs hlt hn
    show slotVal (scanDirsGo n (s + 1) rest (scanDir n s m d)) p i = _
    rcases Nat.eq_or_lt_of_le hs with heq | hlt'
    · subst heq
      rw [scanDirsGo_slotVal_lt n rest p (s + 1) s _ (Nat.lt_succ_self s)]
      rw [scanDir_slotVal_self n s d p m hwf hn]
      simp
    · have h1 : s + 1 ≤ i := hlt'
      have h2 : i - (s + 1) < rest.length := by
        simp only [List.length_cons] at hlt
        omega
      rw [ih (s + 1) i _ (scanDir_wf n s d m hwf) h1 h2 hn]
      rw [scanDir_slotVal_other n s i d p (by omega) m]
      have h3 : (d :: rest).getD (i - s) [] = rest.getD (i - (s + 1)) [] := by
        have : i - s = (i - (s + 1)) + 1 := by omega
        rw [this, List.getD_cons_succ]
      rw [h3]

theorem scanDirs_slotVal (dirs : List (List String)) (p : String) (i : Nat)
    (hi : i < dirs.length) :
    slotVal (scanDirs dirs) p i = (dirMatches p (dirs.getD i [])).getLast? := by
  have := scanDirsGo_slotVal dirs.length dirs p 0 i []
    (by intro e he; simp at he) (Nat.zero_le i) (by simpa using hi) hi
  rw [scanDirs, this]
  simp only [Nat.sub_zero]
  rw [show slotVal [] p i = none from rfl, optOr_none_right]

theorem seqSlots_get? (slots : Slots) :
    ∀ (g : List String), seqSlots slots = some g →
      ∀ j, slots.get? j = (g.get? j).map some := by
  induction slots with
  | nil =>
    intro g h j
    cases h
    rfl
  | cons o rest ih =>
    intro g h j
    cases o with
    | none => exact Option.noConfusion h
    | some f =>
      have h' : (seqSlots rest).map (f :: ·) = some g := h
      cases hsr : seqSlots rest with
      | none => rw [hsr] at h'; exact Option.noConfusion h'
      | some g' =>
        rw [hsr] at h'
        simp only [Option.map_some'] at h'
        cases h'
        cases j with
        | zero => rfl
        | succ j' => exact ih g' hsr j'

theorem seqSlots_length (slots : Slots) :
    ∀ (g : List String), seqSlots slots = some g → slots.length = g.length := by
  induction slots with
  | nil => intro g h; cases h; rfl
  | cons o rest ih =>
    intro g h
    cases o with
    | none => exact Option.noConfusion h
    | some f =>
      have h' : (seqSlots rest).map (f :: ·) = some g := h
      cases hsr : seqSlots rest with
      | none => rw [hsr] at h'; exact Option.noConfusion h'
      | some g' =>
        rw [hsr] at h'
        simp only [Option.map_some'] at h'
        cases h'
        simp [ih g' hsr]

theorem mem_discover_iff (dirs : List (List String)) (g : List String) :
    g ∈ discoverMergeFiles dirs ↔
      ∃ p slots, (p, slots) ∈ scanDirs dirs ∧ seqSlots slots = some g := by
  rw [discoverMergeFiles, List.mem_filterMap]
  constructor
  · intro ⟨e, he, hseq⟩
    exact ⟨e.1, e.2, he, hseq⟩
  · intro ⟨p, slots, hmem, hseq⟩
    exact ⟨(p, slots), hmem, hseq⟩

theorem discover_slot_matches (dirs : List (List String)) (g : List String)
    (hg : g ∈ discoverMergeFiles dirs) :
    ∃ p, g.length = dirs.length ∧ ∀ j f, g.get? j = some f →
      j < dirs.length ∧ f ∈ dirMatches p (dirs.getD j []) ∧
      (dirMatches p (dirs.getD j [])).getLast? = some f := by
  obtain ⟨p, slots, hmem, hseq⟩ := (mem_discover_iff dirs g).mp hg
  have hlen : slots.length = dirs.length := scanDirs_wf dirs (p, slots) hmem
  have hassoc : assocGet (scanDirs dirs) p = some slots :=
    assocGet_of_mem_nodup (scanDirs_keys_nodup dirs) hmem
  have hglen : g.length = dirs.length := by
    rw [← seqSlots_length slots g hseq]
    exact hlen
  refine ⟨p, hglen, ?_⟩
  intro j f hf
  have hsl : slots.get? j = some (some f) := by
    rw [seqSlots_get? slots g hseq j, hf]
    rfl
  have hj : j < dirs.length := by
    rw [← hlen]
    rw [List.get?_eq_getElem?] at hsl
    exact (List.getElem?_eq_some.mp hsl).1
  have hslot : slotVal (scanDirs dirs) p j = some f := by
    rw [slotVal, hassoc]
    show (List.get? slots j).getD none = some f
    rw [hsl]
    rfl
  rw [scanDirs_slotVal dirs p j hj] at hslot
  exact ⟨hj, List.mem_of_getLast?_eq_some hslot, hslot⟩

theorem matchesPattern_same_pattern {p q f : String}
    (hp : matchesPattern p f = true) (hq : matchesPattern q f = true) : p = q := by
  rw [matchesPattern, Bool.and_eq_true, beq_iff_eq] at hp hq
  have := hp.2.symm.trans hq.2
  exact Option.some.inj this

theorem mem_dirMatches {p f : String} {files : List String}
    (h : f ∈ dirMatches p files) : f ∈ files ∧ matchesPattern p f = true := by
  rw [dirMatches, List.mem_filter] at h
  exact h

end ScanLemmas

section ResolveLemmas

theorem resolveRecordId_closed_form (r : Record) (idField : String) :
    resolveRecordId r idField =
      if truthyOpt (assocGet r idField) = true then assocGet r idField
      else if truthyOpt (assocGet r "an") = true then assocGet r "an"
      else none := by
  rw [resolveRecordId]
  by_cases h1 : truthyOpt (assocGet r idField) = true
  · simp [h1]
  · simp [h1]

theorem resolveRecordId_eq_none_iff (r : Record) (idField : String) :
    resolveRecordId r idField = none ↔
      truthyOpt (assocGet r idField) = false ∧ truthyOpt (assocGet r "an") = false := by
  rw [resolveRecordId_closed_form]
  by_cases h1 : truthyOpt (assocGet r idField) = true
  · simp only [h1, if_true]
    constructor
    · intro h
      rw [h] at h1
      exact absurd h1 (by simp [truthyOpt])
    · intro ⟨ha, _⟩
      exact Bool.noConfusion ha
  · have h1' : truthyOpt (assocGet r idField) = false := by
      revert h1; cases truthyOpt (assocGet r idField) <;> simp
    simp only [h1', Bool.false_eq_true, if_false]
    by_cases h2 : truthyOpt (assocGet r "an") = true
    · simp only [h2, if_true]
      constructor
      · intro h
        rw [h] at h2
        exact absurd h2 (by simp [truthyOpt])
      · intro ⟨_, ha⟩
        exact Bool.noConfusion ha
    · have h2' : truthyOpt (assocGet r "an") = false := by
        revert h2; cases truthyOpt (assocGet r "an") <;> simp
      simp [h2']

end ResolveLemmas

/-- C7: `_load_json_file` retries a failing read up to a fixed bound of 3
attempts (with a fixed 5-second delay between attempts); a file whose
read/parse succeeds at some attempt within the bound yields its records,
while a file failing on every attempt propagates the failure, which is
fatal for the group containing that specific file. -/
theorem ila_c7_load_retry_bound (f : MFile) :
    loadMaxAttempts = 3 ∧ loadWaitSeconds = 5 ∧
    (∀ k records, k < loadMaxAttempts → f.attempts k = .ok records →
      (∀ j, j < k → f.attempts j = .err) → loadJsonFile f = .ok (some records)) ∧
    ((∀ k, k < loadMaxAttempts → f.attempts k = .err) →
      loadJsonFile f = .error .retriesExhausted) ∧
    ((∀ k, k < loadMaxAttempts → f.attempts k = .err) →
      ∀ idField gi, mergeSingleGroup [f] idField gi = .error (.loadFailure f.name)) := by
  have hexhaust : (∀ k, k < loadMaxAttempts → f.attempts k = .err) →
      loadJsonFile f = .error .retriesExhausted := by
    intro hall
    have h0 := hall 0 (by decide)
    have h1 := hall 1 (by decide)
    have h2 := hall 2 (by decide)
    simp [loadJsonFile, loadMaxAttempts, tenacityLoop, h0, h1, h2]
  refine ⟨rfl, rfl, ?_, hexhaust, ?_⟩
  · intro k records hk hok hprev
    have hk3 : k < 3 := hk
    interval_cases k
    · simp [loadJsonFile, loadMaxAttempts, tenacityLoop, hok]
    · have h0 := hprev 0 (by omega)
      simp [loadJsonFile, loadMaxAttempts, tenacityLoop, h0, hok]
    · have h0 := hprev 0 (by omega)
      have h1 := hprev 1 (by omega)
      simp [loadJsonFile, loadMaxAttempts, tenacityLoop, h0, h1, hok]
  · intro hall idField gi
    have hload := hexhaust hall
    simp [mergeSingleGroup, mergeGroupGo, hload]

/-- Witness for C7: a file raising on attempt 0 and succeeding on attempt 1
loads its records; a file raising on all three attempts fails its load and
its group. -/
theorem ila_c7_witness :
    loadJsonFile cexRetryFile = .ok (some [[("id", Value.str "r1")]]) ∧
    loadJsonFile cexErrFile = .error .retriesExhausted ∧
    mergeSingleGroup [cexErrFile] "id" 0 = .error (.loadFailure "2020_articles_1_e.json") :=
  ⟨(ila_c7_load_retry_bound cexRetryFile).2.2.1 1 [[("id", Value.str "r1")]] (by decide)
      rfl (by intro j hj; interval_cases j; rfl),
   (ila_c7_load_retry_bound cexErrFile).2.2.2.1 (fun _ _ => rfl),
   (ila_c7_load_retry_bound cexErrFile).2.2.2.2 (fun _ _ => rfl) "id" 0⟩

/-- C2 (code divergence): a member file whose contents parse to a non-list
top-level value makes `_load_json_file` return `None` (the "skipping"
path), and `_merge_single_group` then raises `TypeError` iterating that
`None`, aborting the whole group — it does not contribute zero records
while the sibling files merge normally, as the claim (and the function's
own docstring, log message and return annotation) state. -/
theorem ila_c2_nonlist_aborts_group :
    loadJsonFile cexNotListFile = .ok none ∧
    mergeSingleGroup [cexOkFile, cexNotListFile] "id" 0 =
      .error (.typeError "2020_articles_1_n.json") ∧
    mergeSingleGroup [cexNotListFile, cexOkFile] "id" 0 =
      .error (.typeError "2020_articles_1_n.json") :=
  ⟨rfl, rfl, rfl⟩

/-- C3 (amended): the identifier is taken from `identifier_field` whenever
that field holds a truthy value; the fallback field `an` is consulted
whenever `identifier_field` is absent or its value is falsy; and the
group-aborting missing-identifier error is raised if and only if neither
field holds a truthy value (Python's `if not record_id` tests falsiness,
not mere presence). -/
theorem ila_c3_identifier_resolution (r : Record) (idField fileName : String)
    (byId : List (Value × Record)) :
    (∀ v, assocGet r idField = some v → v.truthy = true →
      resolveRecordId r idField = some v) ∧
    (truthyOpt (assocGet r idField) = false →
      ∀ v, assocGet r "an" = some v → v.truthy = true →
        resolveRecordId r idField = some v) ∧
    (mergeRecordsList idField fileName byId [r] =
        .error (.missingIdentifier fileName) ↔
      truthyOpt (assocGet r idField) = false ∧
        truthyOpt (assocGet r "an") = false) := by
  refine ⟨?_, ?_, ?_⟩
  · intro v hv htr
    rw [resolveRecordId_closed_form, hv]
    simp [truthyOpt, htr]
  · intro hfalsy v hv htr
    rw [resolveRecordId_closed_form, hfalsy, hv]
    simp [truthyOpt, htr]
  · rw [← resolveRecordId_eq_none_iff]
    constructor
    · intro h
      cases hres : resolveRecordId r idField with
      | none => rfl
      | some rid =>
        simp only [mergeRecordsList, hres] at h
        exact absurd h (by simp [mergeRecordsList])
    · intro h
      simp [mergeRecordsList, h]

/-- Witness for C3 (amended): a truthy primary identifier is used, and a
record with neither field aborts with the missing-identifier error. -/
theorem ila_c3_witness :
    resolveRecordId [("id", Value.str "a1")] "id" = some (Value.str "a1") ∧
    mergeRecordsList "id" "f.json" [] [[("x", Value.num 1)]] =
      .error (.missingIdentifier "f.json") :=
  ⟨(ila_c3_identifier_resolution [("id", Value.str "a1")] "id" "f.json" []).1
      (Value.str "a1") rfl rfl,
   ((ila_c3_identifier_resolution [("x", Value.num 1)] "id" "f.json" []).2.2).mpr
      ⟨rfl, rfl⟩⟩

/-- Counterexample to C3 as stated: in `{"id": "", "an": "a2"}` the field
`id` is present, yet the code resolves the identifier to `"a2"` (the
fallback is consulted because `""` is falsy, not because `id` is absent);
and in `{"id": "", "an": ""}` both fields are present, yet the
missing-identifier error is raised. -/
theorem ila_c3_counterexample :
    assocGet [("id", Value.str ""), ("an", Value.str "a2")] "id" =
      some (Value.str "") ∧
    resolveRecordId [("id", Value.str ""), ("an", Value.str "a2")] "id" =
      some (Value.str "a2") ∧
    assocGet [("id", Value.str ""), ("an", Value.str "")] "id" =
      some (Value.str "") ∧
    assocGet [("id", Value.str ""), ("an", Value.str "")] "an" =
      some (Value.str "") ∧
    mergeRecordsList "id" "f.json" [] [[("id", Value.str ""), ("an", Value.str "")]] =
      .error (.missingIdentifier "f.json") :=
  ⟨rfl, rfl, rfl, rfl, rfl⟩

/-- C4: last-writer-wins with identifier exception.  For a complete group
whose files all load and whose records all resolve, if a non-identifier
key `k` is defined for identifier `x` in files `Fᵢ` and `Fⱼ` (`i < j`),
`Fⱼ` being the last file defining `k` for `x` and `v` its last written
value, then the unique merged record for `x` maps `k` to `v`; and its
identifier-field value is `x`, the value first seen — never overwritten by
any later record or file (`_add_record_data` skips the identifier key). -/
theorem ila_c4_last_writer_wins (group : List MFile) (files : List (List Record))
    (idField : String) (gi : Nat) (x : Value) (k : String) (v : Value) (i j : Nat)
    (hload : group.map (fun f => loadJsonFile f) = files.map (fun rs => Except.ok (some rs)))
    (hres : ∀ recs ∈ files, ∀ r ∈ recs, (resolveRecordId r idField).isSome = true)
    (hwf : ∀ recs ∈ files, ∀ r ∈ recs, RecordWF r)
    (hk : k ≠ idField)
    (hij : i < j) (hjlen : j < files.length)
    (hi : defsIn idField x k (files.getD i []) ≠ [])
    (hj : (defsIn idField x k (files.getD j [])).getLast? = some v)
    (hafter : ∀ j', j < j' → j' < files.length → defsIn idField x k (files.getD j' []) = []) :
    ∃ mg rec, mergeSingleGroup group idField gi = .ok (some mg) ∧
      rec ∈ mg.records ∧ assocGet rec idField = some x ∧ assocGet rec k = some v ∧
      ∀ rec' ∈ mg.records, assocGet rec' idField = some x → rec' = rec := by
  have hlink := mergeGroupGo_eq_fold idField group files [] hload hres
  have hstream : (defsIn idField x k files.flatten).getLast? = some v :=
    join_defsIn_getLast idField x k files j v hjlen hj hafter
  have hjmem : files.getD j [] ∈ files := by
    rw [List.getD_eq_getElem _ _ hjlen]
    exact List.getElem_mem hjlen
  have hxid : x ∈ resolvedIds idField files.flatten := by
    obtain ⟨r, hr, hresr⟩ := defsIn_nonempty_resolved idField x k (files.getD j [])
      (by intro hnil; rw [hnil] at hj; exact Option.noConfusion hj)
    exact (mem_resolvedIds_join idField files x).mpr ⟨files.getD j [], hjmem, r, hr, hresr⟩
  obtain ⟨rec, hrec⟩ : ∃ rec, assocGet (foldRecords idField [] files.flatten) x = some rec := by
    cases hg : assocGet (foldRecords idField [] files.flatten) x with
    | none =>
      rw [foldRecords_get_none_iff] at hg
      exact absurd hxid hg.2
    | some rec => exact ⟨rec, rfl⟩
  have hwfflat : ∀ r ∈ files.flatten, RecordWF r := by
    intro r hr
    obtain ⟨l, hl, hrl⟩ := List.mem_flatten.mp hr
    exact hwf l hl r hrl
  have hvalk : assocGet rec k = some v := by
    have h := foldRecords_get_value idField k hk files.flatten hwfflat [] x rec hrec
    rw [h, hstream]
    rfl
  have hvalid : assocGet rec idField = some x :=
    foldRecords_id_field idField files.flatten [] (by simp) (x, rec) (mem_of_assocGet hrec)
  have hnodup : ((foldRecords idField [] files.flatten).map Prod.fst).Nodup :=
    foldRecords_keys_nodup idField files.flatten [] (by simp)
  have hne : foldRecords idField [] files.flatten ≠ [] := by
    intro h0
    rw [h0] at hrec
    exact Option.noConfusion hrec
  refine ⟨⟨gi, group.map (·.name), (foldRecords idField [] files.flatten).map Prod.snd⟩,
    rec, ?_, ?_, hvalid, hvalk, ?_⟩
  · rw [mergeSingleGroup, hlink]
    simp only
    rw [if_neg (by simp [List.isEmpty_iff, hne])]
  · exact List.mem_map.mpr ⟨(x, rec), mem_of_assocGet hrec, rfl⟩
  · intro rec' hrec' hid'
    obtain ⟨⟨x', r'⟩, hp, hpr⟩ := List.mem_map.mp hrec'
    simp only at hpr
    subst hpr
    have hidp : assocGet r' idField = some x' :=
      foldRecords_id_field idField files.flatten [] (by simp) (x', r') hp
    rw [hid'] at hidp
    have hxx : x' = x := (Option.some.inj hidp).symm
    subst hxx
    have hax := assocGet_of_mem_nodup hnodup hp
    rw [hrec] at hax
    exact (Option.some.inj hax).symm

/-- Witness for C4: two files both define key `x` for identifier `a1`; the
merged record carries the second file's value and the identifier value. -/
theorem ila_c4_witness :
    ∃ mg rec, mergeSingleGroup [cexOkFile, cexOverwriteFile] "id" 0 = .ok (some mg) ∧
      rec ∈ mg.records ∧ assocGet rec "id" = some (Value.str "a1") ∧
      assocGet rec "x" = some (Value.num 2) ∧
      ∀ rec' ∈ mg.records, assocGet rec' "id" = some (Value.str "a1") → rec' = rec :=
  ila_c4_last_writer_wins [cexOkFile, cexOverwriteFile]
    [[[("id", .str "a1"), ("x", .num 1)]], [[("id", .str "a1"), ("x", .num 2)]]]
    "id" 0 (Value.str "a1") "x" (Value.num 2) 0 1
    rfl (by decide) (by decide) (by decide) (by decide) (by decide)
    (by decide) (by decide)
    (fun j' h1 _ => by
      have hgd : [[[("id", Value.str "a1"), ("x", Value.num 1)]],
          [[("id", Value.str "a1"), ("x", Value.num 2)]]].getD j' ([] : List Record) = [] :=
        List.getD_eq_default _ _ (by simp only [List.length_cons, List.length_nil]; omega)
      rw [hgd]
      rfl)

/-- C5: merged identifier set is the union.  For a complete group whose
member files each load as a list of records all carrying a resolvable
identifier, the identifiers appearing in the merged records are exactly
the union of the files' resolved identifiers, with one merged record per
distinct identifier, so the merged record count is at least the
distinct-identifier count of every single member file. -/
theorem ila_c5_merged_ids_union (group : List MFile) (files : List (List Record))
    (idField : String) (gi : Nat)
    (hload : group.map (fun f => loadJsonFile f) = files.map (fun rs => Except.ok (some rs)))
    (hres : ∀ recs ∈ files, ∀ r ∈ recs, (resolveRecordId r idField).isSome = true) :
    ∃ m, mergeSingleGroup group idField gi = .ok m ∧
      (∀ v, v ∈ mergedIds idField m ↔
        ∃ recs ∈ files, ∃ r ∈ recs, resolveRecordId r idField = some v) ∧
      (mergedIds idField m).Nodup ∧
      ∀ recs ∈ files, (resolvedIds idField recs).dedup.length ≤ (recordsOf m).length := by
  have hlink := mergeGroupGo_eq_fold idField group files [] hload hres
  have hkeysnd : ((foldRecords idField [] files.flatten).map Prod.fst).Nodup :=
    foldRecords_keys_nodup idField files.flatten [] (by simp)
  have hpairs : ∀ p ∈ foldRecords idField [] files.flatten,
      assocGet p.2 idField = some p.1 :=
    foldRecords_id_field idField files.flatten [] (by simp)
  have hmem_iff : ∀ v, v ∈ (foldRecords idField [] files.flatten).map Prod.fst ↔
      v ∈ resolvedIds idField files.flatten := by
    intro v
    constructor
    · intro hv
      by_contra hnv
      have h0 : assocGet (foldRecords idField [] files.flatten) v = none :=
        (foldRecords_get_none_iff idField files.flatten [] v).mpr ⟨rfl, hnv⟩
      rw [assocGet_eq_none_iff] at h0
      exact h0 hv
    · intro hv
      by_contra hnv
      have h0 : assocGet (foldRecords idField [] files.flatten) v = none :=
        (assocGet_eq_none_iff _ v).mpr hnv
      rw [foldRecords_get_none_iff] at h0
      exact h0.2 hv
  by_cases hnil : foldRecords idField [] files.flatten = []
  · refine ⟨none, ?_, ?_, by simp [mergedIds, recordsOf], ?_⟩
    · rw [mergeSingleGroup, hlink]
      simp only
      rw [if_pos (by simp [hnil])]
    · intro v
      simp only [mergedIds, recordsOf, List.filterMap_nil]
      simp only [List.not_mem_nil, false_iff]
      intro ⟨recs, hrecs, r, hr, hresv⟩
      have hv : v ∈ resolvedIds idField files.flatten :=
        (mem_resolvedIds_join idField files v).mpr ⟨recs, hrecs, r, hr, hresv⟩
      rw [← hmem_iff, hnil] at hv
      simp at hv
    · intro recs hrecs
      have hempty : resolvedIds idField recs = [] := by
        by_contra hne
        obtain ⟨v, hv⟩ := List.exists_mem_of_ne_nil _ hne
        obtain ⟨r, hr, hresv⟩ := List.mem_filterMap.mp hv
        have hvj : v ∈ resolvedIds idField files.flatten :=
          (mem_resolvedIds_join idField files v).mpr ⟨recs, hrecs, r, hr, hresv⟩
        rw [← hmem_iff, hnil] at hvj
        simp at hvj
      simp [hempty, recordsOf]
  · have hmids : mergedIds idField (some ⟨gi, group.map (·.name),
        (foldRecords idField [] files.flatten).map Prod.snd⟩) =
        (foldRecords idField [] files.flatten).map Prod.fst := by
      simp only [mergedIds, recordsOf]
      exact filterMap_id_of_pairs idField _ hpairs
    refine ⟨some ⟨gi, group.map (·.name),
      (foldRecords idField [] files.flatten).map Prod.snd⟩, ?_, ?_, ?_, ?_⟩
    · rw [mergeSingleGroup, hlink]
      simp only
      rw [if_neg (by simp [List.isEmpty_iff, hnil])]
    · intro v
      rw [hmids, hmem_iff, mem_resolvedIds_join]
    · rw [hmids]
      exact hkeysnd
    · intro recs hrecs
      have hsub : (resolvedIds idField recs).dedup ⊆
          (foldRecords idField [] files.flatten).map Prod.fst := by
        intro v hv
        rw [List.mem_dedup] at hv
        obtain ⟨r, hr, hresv⟩ := List.mem_filterMap.mp hv
        rw [hmem_iff, mem_resolvedIds_join]
        exact ⟨recs, hrecs, r, hr, hresv⟩
      have hle := (List.subperm_of_subset (List.nodup_dedup _) hsub).length_le
      calc (resolvedIds idField recs).dedup.length
          ≤ ((foldRecords idField [] files.flatten).map Prod.fst).length := hle
        _ = (recordsOf (some ⟨gi, group.map (·.name),
              (foldRecords idField [] files.flatten).map Prod.snd⟩)).length := by
            simp [recordsOf]

/-- Witness for C5: a two-file group with identifiers `{a1}` and
`{a1, a2}` merges to the union `{a1, a2}`, two records, each file's
distinct-identifier count bounded by it. -/
theorem ila_c5_witness :
    ∃ m, mergeSingleGroup
        [cexOkFile, ⟨"2020_articles_1_d.json",
          fun _ => .ok [[("id", .str "a1"), ("y", .num 2)], [("id", .str "a2"), ("y", .num 3)]]⟩]
        "id" 0 = .ok m ∧
      (∀ v, v ∈ mergedIds "id" m ↔
        ∃ recs ∈ [[[("id", Value.str "a1"), ("x", Value.num 1)]],
          [[("id", Value.str "a1"), ("y", Value.num 2)], [("id", Value.str "a2"), ("y", Value.num 3)]]],
          ∃ r ∈ recs, resolveRecordId r "id" = some v) ∧
      (mergedIds "id" m).Nodup ∧
      ∀ recs ∈ [[[("id", Value.str "a1"), ("x", Value.num 1)]],
        [[("id", Value.str "a1"), ("y", Value.num 2)], [("id", Value.str "a2"), ("y", Value.num 3)]]],
        (resolvedIds "id" recs).dedup.length ≤ (recordsOf m).length :=
  ila_c5_merged_ids_union
    [cexOkFile, ⟨"2020_articles_1_d.json",
      fun _ => .ok [[("id", .str "a1"), ("y", .num 2)], [("id", .str "a2"), ("y", .num 3)]]⟩]
    [[[("id", .str "a1"), ("x", .num 1)]],
     [[("id", .str "a1"), ("y", .num 2)], [("id", .str "a2"), ("y", .num 3)]]]
    "id" 0 rfl (by decide)

/-- C6: completeness gate.  Every produced file group consists of one file
per configured location, all sharing one canonical pattern; and if pattern
`p` has no matching file in at least one location, no group for `p` is
ever produced (no produced group contains any file of pattern `p`), and
whenever `p` has a matching file somewhere, it is counted among the
incomplete patterns. -/
theorem ila_c6_completeness_gate (dirs : List (List String)) (p : String) :
    (∀ g ∈ discoverMergeFiles dirs,
      ∃ q, ∀ i, i < dirs.length → ∃ f, g.get? i = some f ∧
        f ∈ dirs.getD i [] ∧ matchesPattern q f = true) ∧
    (∀ i, i < dirs.length → dirMatches p (dirs.getD i []) = [] →
      (∀ g ∈ discoverMergeFiles dirs, ∀ f ∈ g, matchesPattern p f = false) ∧
      ((∃ i', i' < dirs.length ∧ dirMatches p (dirs.getD i' []) ≠ []) →
        p ∈ incompletePatterns dirs)) := by
  constructor
  · intro g hg
    obtain ⟨q, hglen, hq⟩ := discover_slot_matches dirs g hg
    refine ⟨q, ?_⟩
    intro i hi
    obtain ⟨f, hf⟩ : ∃ f, g.get? i = some f := by
      cases hgf : g.get? i with
      | none =>
        rw [List.get?_eq_none] at hgf
        rw [hglen] at hgf
        exact absurd hi (Nat.not_lt.mpr hgf)
      | some f => exact ⟨f, rfl⟩
    obtain ⟨_, hfm, _⟩ := hq i f hf
    obtain ⟨hfmem, hfmatch⟩ := mem_dirMatches hfm
    exact ⟨f, hf, hfmem, hfmatch⟩
  · intro i hi hempty
    constructor
    · intro g hg f hf
      obtain ⟨q, hglen, hq⟩ := discover_slot_matches dirs g hg
      by_contra hb
      have hpf : matchesPattern p f = true := by
        revert hb; cases matchesPattern p f <;> simp
      obtain ⟨jdx, hjdx⟩ := List.mem_iff_get?.mp hf
      obtain ⟨_, hfm, _⟩ := hq jdx f hjdx
      have hqf : matchesPattern q f = true := (mem_dirMatches hfm).2
      have hqp : p = q := matchesPattern_same_pattern hpf hqf
      subst hqp
      obtain ⟨fi, hfi⟩ : ∃ fi, g.get? i = some fi := by
        cases hgf : g.get? i with
        | none =>
          rw [List.get?_eq_none] at hgf
          rw [hglen] at hgf
          exact absurd hi (Nat.not_lt.mpr hgf)
        | some fi => exact ⟨fi, rfl⟩
      obtain ⟨_, hfim, _⟩ := hq i fi hfi
      rw [hempty] at hfim
      exact absurd hfim (List.not_mem_nil fi)
    · intro ⟨i', hi', hne'⟩
      have hslot' : slotVal (scanDirs dirs) p i' =
          (dirMatches p (dirs.getD i' [])).getLast? := scanDirs_slotVal dirs p i' hi'
      obtain ⟨f0, hf0⟩ :=
        Option.isSome_iff_exists.mp (List.getLast?_isSome.mpr hne')
      cases hga : assocGet (scanDirs dirs) p with
      | none =>
        rw [slotVal, hga] at hslot'
        rw [hf0] at hslot'
        exact Option.noConfusion hslot'
      | some slots =>
        have hmem : (p, slots) ∈ scanDirs dirs := mem_of_assocGet hga
        have hlen : slots.length = dirs.length := scanDirs_wf dirs (p, slots) hmem
        obtain ⟨o, ho⟩ : ∃ o, slots.get? i = some o := by
          cases hoi : slots.get? i with
          | none =>
            rw [List.get?_eq_none, hlen] at hoi
            exact absurd hi (Nat.not_lt.mpr hoi)
          | some o => exact ⟨o, rfl⟩
        have honone : o = none := by
          have hsvm : slotVal (scanDirs dirs) p i = (List.get? slots i).getD none := by
            rw [slotVal, hga]
          have h2 : (List.get? slots i).getD none = ([] : List String).getLast? := by
            rw [← hsvm, scanDirs_slotVal dirs p i hi, hempty]
          rw [ho] at h2
          exact h2
        subst honone
        have hincomp : slotsComplete slots = false := by
          by_contra hb
          have hcomp : slotsComplete slots = true := by
            revert hb; cases slotsComplete slots <;> simp
          rw [slotsComplete, List.all_eq_true] at hcomp
          have := hcomp none (List.get?_mem ho)
          simp at this
        rw [incompletePatterns]
        exact List.mem_map.mpr ⟨(p, slots),
          List.mem_filter.mpr ⟨hmem, by simp [hincomp]⟩, rfl⟩

/-- Witness for C6: the pattern `2020_articles_1_` has a file in the first
location but none in the second; no group is produced for it and it is
counted incomplete. -/
theorem ila_c6_witness :
    (∀ g ∈ discoverMergeFiles [["2020_articles_1_a.json"], ["notes.json"]],
      ∀ f ∈ g, matchesPattern "2020_articles_1_" f = false) ∧
    "2020_articles_1_" ∈ incompletePatterns [["2020_articles_1_a.json"], ["notes.json"]] := by
  have h := (ila_c6_completeness_gate [["2020_articles_1_a.json"], ["notes.json"]]
    "2020_articles_1_").2 1 (by decide) (by decide)
  exact ⟨h.1, h.2 ⟨0, by decide, by decide⟩⟩

/-- C9: a same-location pattern collision is a silent overwrite.  For a
location `i` and pattern `p`, the pattern's slot for `i` holds exactly the
last enumerated matching file of that listing; a matching file `f1` that
is not the last one is replaced without any error state and appears at
slot `i` of no produced file group. -/
theorem ila_c9_slot_overwrite (dirs : List (List String)) (i : Nat) (p f1 : String)
    (hi : i < dirs.length)
    (hf1 : f1 ∈ dirMatches p (dirs.getD i []))
    (hnotlast : (dirMatches p (dirs.getD i [])).getLast? ≠ some f1) :
    slotVal (scanDirs dirs) p i = (dirMatches p (dirs.getD i [])).getLast? ∧
    (∃ f2, (dirMatches p (dirs.getD i [])).getLast? = some f2 ∧ f2 ≠ f1 ∧
      f2 ∈ dirMatches p (dirs.getD i [])) ∧
    (∀ g ∈ discoverMergeFiles dirs, g.get? i ≠ some f1) := by
  refine ⟨scanDirs_slotVal dirs p i hi, ?_, ?_⟩
  · obtain ⟨f2, hf2⟩ := Option.isSome_iff_exists.mp
      (List.getLast?_isSome.mpr (List.ne_nil_of_mem hf1))
    refine ⟨f2, hf2, ?_, List.mem_of_getLast?_eq_some hf2⟩
    intro heq
    rw [heq] at hf2
    exact hnotlast hf2
  · intro g hg hslot
    obtain ⟨q, _, hq⟩ := discover_slot_matches dirs g hg
    obtain ⟨_, hfm, hlast⟩ := hq i f1 hslot
    have hqf : matchesPattern q f1 = true := (mem_dirMatches hfm).2
    have hpf : matchesPattern p f1 = true := (mem_dirMatches hf1).2
    have hqp : p = q := matchesPattern_same_pattern hpf hqf
    subst hqp
    exact hnotlast hlast

/-- Witness for C9: with two same-pattern files in location 0, the slot
holds the later file and the earlier one is in no produced group. -/
theorem ila_c9_witness :
    slotVal (scanDirs [["2020_articles_1_a.json", "2020_articles_1_b.json"],
        ["2020_articles_1_c.json"]]) "2020_articles_1_" 0 =
      (dirMatches "2020_articles_1_"
        (([["2020_articles_1_a.json", "2020_articles_1_b.json"],
          ["2020_articles_1_c.json"]] : List (List String)).getD 0 [])).getLast? ∧
    (∃ f2, (dirMatches "2020_articles_1_"
        (([["2020_articles_1_a.json", "2020_articles_1_b.json"],
          ["2020_articles_1_c.json"]] : List (List String)).getD 0 [])).getLast? = some f2 ∧
      f2 ≠ "2020_articles_1_a.json" ∧
      f2 ∈ dirMatches "2020_articles_1_"
        (([["2020_articles_1_a.json", "2020_articles_1_b.json"],
          ["2020_articles_1_c.json"]] : List (List String)).getD 0 [])) ∧
    (∀ g ∈ discoverMergeFiles [["2020_articles_1_a.json", "2020_articles_1_b.json"],
        ["2020_articles_1_c.json"]], g.get? 0 ≠ some "2020_articles_1_a.json") :=
  ila_c9_slot_overwrite [["2020_articles_1_a.json", "2020_articles_1_b.json"],
    ["2020_articles_1_c.json"]] 0 "2020_articles_1_" "2020_articles_1_a.json"
    (by decide) (by decide) (by decide)

/-- C1 (amended): a group whose merge raises the missing-identifier fault
or exhausts the load-retry bound is NOT caught at the orchestrator
boundary: `process_group` calls `_merge_single_group` outside its
`try`/`except` (which guards only the save step), so the exception
propagates through `joblib.Parallel` and `merge_files` raises — no result
set is returned and no other group appears in any result, in every mode. -/
theorem ila_c1_group_fault_propagates (fileGroups : List (List MFile))
    (idField outputDir : String) (save append : Bool) (j : Nat) (e : GroupErr)
    (hok : ∀ i, i < j → ∃ v, mergeSingleGroup (fileGroups.getD i []) idField i = .ok v)
    (hj : j < fileGroups.length)
    (he : mergeSingleGroup (fileGroups.getD j []) idField j = .error e) :
    (mergeFiles fileGroups idField save append outputDir).1 = .error e := by
  rw [mergeFiles]
  refine mergeFilesGo_error idField save append outputDir fileGroups 0 j e ?_ hj ?_
  · intro i hi
    obtain ⟨v, hv⟩ := hok i hi
    exact ⟨v, by rwa [Nat.zero_add]⟩
  · rwa [Nat.zero_add]

/-- Counterexample to C1 as stated: a run over two groups where the first
merges cleanly and the second contains a record with no identifier does
not return a result set containing the first group — `merge_files`
propagates the `ValueError` instead. -/
theorem ila_c1_counterexample :
    mergeSingleGroup [cexOkFile] "id" 0 =
      .ok (some ⟨0, ["2020_articles_1_a.json"],
        [[("id", Value.str "a1"), ("x", Value.num 1)]]⟩) ∧
    (mergeFiles [[cexOkFile], [cexBadFile]] "id" false true "out").1 =
      .error (.missingIdentifier "2020_articles_1_b.json") :=
  ⟨rfl, rfl⟩

/-- Witness for C1 (amended): a run whose first group raises the
missing-identifier fault makes `merge_files` itself return that error. -/
theorem ila_c1_witness :
    (mergeFiles [[cexBadFile], [cexOkFile]] "id" true false "out").1 =
      .error (.missingIdentifier "2020_articles_1_b.json") :=
  ila_c1_group_fault_propagates [[cexBadFile], [cexOkFile]] "id" "out" true false 0
    (.missingIdentifier "2020_articles_1_b.json")
    (fun i hi => absurd hi (Nat.not_lt_zero i)) (by decide) rfl

/-- C8 (amended): persist-per-group output.  When saving is enabled and
every group's merge succeeds, `merge_files` performs exactly one write per
group whose merge returns a non-null `MergedGroup` — at the path derived
from the first merged record's `ILA_original_filename` when that value is
truthy, else from the first member file's stem — and returns the written
paths, one per persisted group, in group order.  The two final conjuncts
state the naming rule itself. -/
theorem ila_c8_persist_per_group (fileGroups : List (List MFile))
    (idField outputDir : String) (append : Bool)
    (hok : ∀ i, i < fileGroups.length →
      ∃ v, mergeSingleGroup (fileGroups.getD i []) idField i = .ok v) :
    mergeFiles fileGroups idField true append outputDir =
      (.ok ((specPersistWrites idField outputDir 0 fileGroups).map
        (fun w => .savedPath w.1)),
       specPersistWrites idField outputDir 0 fileGroups) ∧
    (∀ (g : List MFile) (mg : MergedGroup) (v : Value),
      assocGet (mg.records.headD []) "ILA_original_filename" = some v →
      v.truthy = true → outputFilename g mg = pyStr v ++ ".json") ∧
    (∀ (f : MFile) (rest : List MFile) (mg : MergedGroup),
      truthyOpt (assocGet (mg.records.headD []) "ILA_original_filename") = false →
      outputFilename (f :: rest) mg = pathStem f.name ++ ".json") := by
  refine ⟨?_, ?_, ?_⟩
  · rw [mergeFiles]
    apply mergeFilesGo_persist
    intro i hi
    obtain ⟨v, hv⟩ := hok i hi
    exact ⟨v, by rwa [Nat.zero_add]⟩
  · intro g mg v hv htr
    have hv' : assocGet (mg.records.head?.getD []) "ILA_original_filename" = some v := by
      rw [← List.headD_eq_head?_getD]
      exact hv
    simp [outputFilename, hv', truthyOpt, htr]
  · intro f rest mg hfalsy
    have hf' : truthyOpt (assocGet (mg.records.head?.getD []) "ILA_original_filename") = false := by
      rw [← List.headD_eq_head?_getD]
      exact hfalsy
    simp [outputFilename, hf']

/-- Counterexample to C8 as stated: a group whose first merged record
carries `ILA_original_filename` with the (present but falsy) value `""` is
written under the first member file's stem, not under a name derived from
the present attribute. -/
theorem ila_c8_counterexample :
    mergeFiles [[cexFalsyNameFile]] "id" true false "out" =
      (.ok [.savedPath "out/2020_articles_1_src.json"],
       [("out/2020_articles_1_src.json",
         [[("id", Value.str "a1"), ("ILA_original_filename", Value.str "")]])]) ∧
    assocGet [("id", Value.str "a1"), ("ILA_original_filename", Value.str "")]
      "ILA_original_filename" = some (Value.str "") ∧
    ("out/2020_articles_1_src.json" : String) ≠ "out/.json" :=
  ⟨rfl, rfl, by decide⟩

/-- Witness for C8 (amended): a one-group run writes exactly one file at
the stem-derived path and returns that path. -/
theorem ila_c8_witness :
    mergeFiles [[cexOkFile]] "id" true false "out" =
      (.ok [.savedPath "out/2020_articles_1_a.json"],
       [("out/2020_articles_1_a.json", [[("id", Value.str "a1"), ("x", Value.num 1)]])]) := by
  have h := (ila_c8_persist_per_group [[cexOkFile]] "id" "out" false
    (fun i hi => by
      simp only [List.length_cons, List.length_nil] at hi
      interval_cases i
      exact ⟨_, rfl⟩)).1
  rw [h]
  rfl

/-- C10: no-write frame in non-persist modes.  With
`save_disaggregrated_files` false, `merge_files` performs no file write at
all, for any input and in both non-persist modes; moreover in accumulate
mode every returned element is a full merged group and in index-only mode
every returned element is a placeholder. -/
theorem ila_c10_no_write_frame (fileGroups : List (List MFile))
    (idField outputDir : String) :
    (mergeFiles fileGroups idField false true outputDir).2 = [] ∧
    (mergeFiles fileGroups idField false false outputDir).2 = [] ∧
    (∀ rs, (mergeFiles fileGroups idField false true outputDir).1 = .ok rs →
      ∀ r ∈ rs, ∃ mg, r = .mergedGroup mg) ∧
    (∀ rs, (mergeFiles fileGroups idField false false outputDir).1 = .ok rs →
      ∀ r ∈ rs, ∃ i, r = .placeholder i) :=
  ⟨mergeFilesGo_no_save_writes idField true outputDir fileGroups 0,
   mergeFilesGo_no_save_writes idField false outputDir fileGroups 0,
   fun rs h => mergeFilesGo_accumulate_shape idField outputDir fileGroups 0 rs h,
   fun rs h => mergeFilesGo_indexonly_shape idField outputDir fileGroups 0 rs h⟩

/-- Witness for C10: a concrete accumulate-mode run writes nothing and its
returned element is a full merged group. -/
theorem ila_c10_witness :
    (mergeFiles [[cexOkFile]] "id" false true "out").2 = [] ∧
    ∃ mg, (MergeResult.mergedGroup ⟨0, ["2020_articles_1_a.json"],
      [[("id", Value.str "a1"), ("x", Value.num 1)]]⟩) = .mergedGroup mg :=
  ⟨(ila_c10_no_write_frame [[cexOkFile]] "id" "out").1,
   (ila_c10_no_write_frame [[cexOkFile]] "id" "out").2.2.1
     [.mergedGroup ⟨0, ["2020_articles_1_a.json"],
       [[("id", Value.str "a1"), ("x", Value.num 1)]]⟩]
     rfl _ (List.mem_singleton_self _)⟩

end ILA
